import Mathlib

/-!
Verification development for the Mamdani fuzzy inference engine of the
event recommendation system (`fuzzy/custom_mamdani.py` and
`fuzzy/custom_event_system.py`).

Modelling conventions:
* Python floats are modelled as exact rationals (`ℚ`).
* Python dictionaries (which preserve insertion order and have unique keys)
  are modelled as association lists `List (String × α)` together with the
  lookup function `alGet` (first match) and the store function `alSet`
  (overwrite in place if the key is present, append otherwise).
* Code that can raise an exception is modelled in the `Except String` monad;
  code without a `raise` is modelled as a total function.
* `numpy` arrays are modelled as `List ℚ`; `np.searchsorted` on a sorted
  array with the default side is the number of elements strictly below the
  probe, `np.minimum`/`np.maximum` with a scalar are pointwise `min`/`max`.
-/

/-- Lookup in a Python-dict-as-association-list: first entry with the key. -/
def alGet {α : Type} (l : List (String × α)) (k : String) : Option α :=
  (l.find? (fun p => p.1 == k)).map (fun p => p.2)

/-- Store into a Python-dict-as-association-list: overwrite the entry in
place when the key is present, append a new entry otherwise. -/
def alSet {α : Type} (l : List (String × α)) (k : String) (v : α) : List (String × α) :=
  if l.any (fun p => p.1 == k) then l.map (fun p => if p.1 == k then (k, v) else p)
  else l ++ [(k, v)]

/-- Embedding of `np.linspace(lo, hi, n)`: `n` equally spaced samples from
`lo` to `hi` inclusive (a single sample is `lo`). -/
def linspace (lo hi : ℚ) (n : ℕ) : List ℚ :=
  (List.range n).map (fun i : ℕ =>
    if n ≤ 1 then lo else lo + (hi - lo) * (i : ℚ) / ((n : ℚ) - 1))

/-- The last element of a nonempty list (0 for the empty list): the Python
index `[-1]`. -/
def listLast (l : List ℚ) : ℚ := l.getLastD 0

/-- The linear-interpolation formula `y1 + (y2 - y1) * (x - x1) / (x2 - x1)`
used by `FuzzySet.membership`. -/
def lininterp (x1 x2 y1 y2 x : ℚ) : ℚ :=
  y1 + (y2 - y1) * (x - x1) / (x2 - x1)

/-- Embedding of class `FuzzySet` (custom_mamdani.py line 5).  The Python
attribute `universe` is called `univ` here because `universe` is a reserved
word in Lean. -/
structure FuzzySet where
  name : String
  univ : List ℚ
  membership_values : List ℚ
deriving DecidableEq

/-- Embedding of `FuzzySet.membership` (custom_mamdani.py lines 12-25):
flat extrapolation outside the sampled universe, otherwise linear
interpolation between the bracketing samples found by `np.searchsorted`. -/
def FuzzySet.membership (s : FuzzySet) (x : ℚ) : ℚ :=
  if x ≤ s.univ.headD 0 then s.membership_values.headD 0
  else if listLast s.univ ≤ x then listLast s.membership_values
  else
    let idx := s.univ.countP (fun u => decide (u < x))
    lininterp (s.univ.getD (idx - 1) 0) (s.univ.getD idx 0)
      (s.membership_values.getD (idx - 1) 0) (s.membership_values.getD idx 0) x

/-- Pointwise value stored by `FuzzySet.triangular` (lines 27-37): the
branches of the Python loop body, with the untouched initialisation 0.0 as
the final else. -/
def triangularVal (a b c x : ℚ) : ℚ :=
  if x ≤ a ∨ c ≤ x then 0
  else if a < x ∧ x ≤ b then (x - a) / (b - a)
  else if b < x ∧ x < c then (c - x) / (c - b)
  else 0

/-- Embedding of `FuzzySet.triangular`: overwrite the stored samples with
the triangular shape evaluated at every universe sample. -/
def FuzzySet.triangular (s : FuzzySet) (a b c : ℚ) : FuzzySet :=
  { s with membership_values := s.univ.map (triangularVal a b c) }

/-- Pointwise value stored by `FuzzySet.trapezoidal` (lines 39-51). -/
def trapezoidalVal (a b c d x : ℚ) : ℚ :=
  if x ≤ a ∨ d ≤ x then 0
  else if a < x ∧ x ≤ b then (x - a) / (b - a)
  else if b < x ∧ x ≤ c then 1
  else if c < x ∧ x < d then (d - x) / (d - c)
  else 0

/-- Embedding of `FuzzySet.trapezoidal`. -/
def FuzzySet.trapezoidal (s : FuzzySet) (a b c d : ℚ) : FuzzySet :=
  { s with membership_values := s.univ.map (trapezoidalVal a b c d) }

/-- Truncated Taylor series of the exponential, used as the total rational
stand-in for the (transcendental, but total and never-raising) `np.exp`. -/
def expTaylor (t : ℚ) : ℚ :=
  ((List.range 20).map (fun k => t ^ k / (Nat.factorial k : ℚ))).sum

/-- Total rational stand-in for `np.exp`.  `np.exp` never raises, and every
claim about Gaussian sets concerns only the absence of a build-time check,
never the numeric value of `exp`; the stand-in keeps the one property the
bounds proofs use, namely that `exp` of a nonpositive argument lies in
`(0, 1]`, by computing `exp x = 1 / exp (-x)` for `x ≤ 0`. -/
def expQ (x : ℚ) : ℚ :=
  if x ≤ 0 then 1 / expTaylor (-x) else expTaylor x

/-- Pointwise value stored by `FuzzySet.gaussian` (lines 53-56):
`exp(-(x-mean)^2 / (2*sigma^2))`, with no validation of `sigma`. -/
def gaussianVal (mean sigma x : ℚ) : ℚ :=
  expQ (-((x - mean) ^ 2) / (2 * sigma ^ 2))

/-- Embedding of `FuzzySet.gaussian`. -/
def FuzzySet.gaussian (s : FuzzySet) (mean sigma : ℚ) : FuzzySet :=
  { s with membership_values := s.univ.map (gaussianVal mean sigma) }

/-- Embedding of class `FuzzyVariable` (lines 67-95): a name, a sampled
universe, and an ordered dictionary of named fuzzy sets. -/
structure FuzzyVariable where
  name : String
  univ : List ℚ
  sets : List (String × FuzzySet)
deriving DecidableEq

/-- Embedding of `FuzzyVariable.__init__`: the universe is
`np.linspace(universe_min, universe_max, num_points)` and the set
dictionary starts empty. -/
def mkFuzzyVariable (nm : String) (lo hi : ℚ) (n : ℕ) : FuzzyVariable :=
  ⟨nm, linspace lo hi n, []⟩

/-- Embedding of `FuzzyVariable.add_set` (lines 74-88): build a zero-filled
set over the shared universe, dispatch on the shape tag (raising `ValueError`
for an unknown tag, and a `TypeError` when the parameter count does not fit
the shape constructor), then store it under its name (overwriting). -/
def FuzzyVariable.add_set (v : FuzzyVariable) (nm set_type : String) (params : List ℚ) :
    Except String FuzzyVariable :=
  let base : FuzzySet := ⟨nm, v.univ, v.univ.map (fun _ => 0)⟩
  let built : Except String FuzzySet :=
    if set_type = "triangular" then
      match params with
      | [a, b, c] => .ok (base.triangular a b c)
      | _ => .error "TypeError: triangular takes 3 parameters"
    else if set_type = "trapezoidal" then
      match params with
      | [a, b, c, d] => .ok (base.trapezoidal a b c d)
      | _ => .error "TypeError: trapezoidal takes 4 parameters"
    else if set_type = "gaussian" then
      match params with
      | [m, sg] => .ok (base.gaussian m sg)
      | _ => .error "TypeError: gaussian takes 2 parameters"
    else .error ("Unknown set type: " ++ set_type)
  built.map (fun fs => { v with sets := alSet v.sets nm fs })

/-- Embedding of `FuzzyVariable.fuzzify` (lines 90-95): the membership
degree of the crisp value in every owned set, keyed by set name. -/
def FuzzyVariable.fuzzify (v : FuzzyVariable) (crisp_value : ℚ) : List (String × ℚ) :=
  v.sets.map (fun p => (p.1, p.2.membership crisp_value))

/-- Embedding of class `FuzzyRule` (lines 112-127): the antecedent
dictionary maps variable names to set names and may carry the magic "op"
key; the consequent maps output variable names to set names. -/
structure FuzzyRule where
  antecedent : List (String × String)
  consequent : List (String × String)
  weight : ℚ
deriving DecidableEq

/-- Degree contributed by one antecedent term (lines 146-147): the
fuzzified degrees of the variable (empty dictionary when the variable is
absent), then the degree of the set (0.0 when absent). -/
def termDegree (f : List (String × List (String × ℚ))) (vr st : String) : ℚ :=
  (alGet ((alGet f vr).getD []) st).getD 0

/-- The list of antecedent degrees collected by `FuzzyRule.evaluate`
(lines 142-148), skipping the "op" key. -/
def collectStrengths (ant : List (String × String))
    (f : List (String × List (String × ℚ))) : List ℚ :=
  (ant.filter (fun p => p.1 ≠ "op")).map (fun p => termDegree f p.1 p.2)

/-- Python `min` over a nonempty list (0.0 when empty, matching the
`if strengths else 0.0` guard at line 153). -/
def listMin : List ℚ → ℚ
  | [] => 0
  | h :: t => t.foldl min h

/-- Python `max` over a nonempty list (0.0 when empty, line 155). -/
def listMax : List ℚ → ℚ
  | [] => 0
  | h :: t => t.foldl max h

/-- ASCII model of Python `str.upper()` applied to the operator key at line
151. -/
def pyUpper (s : String) : String :=
  ⟨s.data.map Char.toUpper⟩

/-- The AND/OR combination switch of lines 150-157: AND takes the minimum
of the collected degrees, OR the maximum (0.0 for an empty collection), and
any other operator raises `ValueError`. -/
def combineOp (op : String) (strengths : List ℚ) : Except String ℚ :=
  if op = "AND" then .ok (if strengths.isEmpty then 0 else listMin strengths)
  else if op = "OR" then .ok (if strengths.isEmpty then 0 else listMax strengths)
  else .error ("Unknown operation: " ++ op)

/-- Embedding of `FuzzyRule.evaluate` (lines 129-167): collect the degrees,
combine by AND→min / OR→max (default AND, `ValueError` otherwise), multiply
by the weight, and emit one `{output_set: firing_strength}` entry per
consequent term. -/
def FuzzyRule.evaluate (r : FuzzyRule) (f : List (String × List (String × ℚ))) :
    Except String (List (String × List (String × ℚ))) :=
  (combineOp (pyUpper ((alGet r.antecedent "op").getD "AND"))
      (collectStrengths r.antecedent f)).map (fun fs =>
    r.consequent.map (fun p => (p.1, [(p.2, fs * r.weight)])))

/-- Embedding of class `MamdaniFuzzySystem` (lines 186-209). -/
structure MamdaniFuzzySystem where
  input_variables : List (String × FuzzyVariable)
  output_variables : List (String × FuzzyVariable)
  rules : List FuzzyRule
deriving DecidableEq

/-- The freshly constructed system (lines 188-191). -/
def MamdaniFuzzySystem.empty : MamdaniFuzzySystem := ⟨[], [], []⟩

/-- Embedding of `add_input_variable` (lines 193-197). -/
def MamdaniFuzzySystem.add_input_variable (s : MamdaniFuzzySystem)
    (nm : String) (lo hi : ℚ) (n : ℕ) : MamdaniFuzzySystem :=
  { s with input_variables := alSet s.input_variables nm (mkFuzzyVariable nm lo hi n) }

/-- Embedding of `add_output_variable` (lines 199-203). -/
def MamdaniFuzzySystem.add_output_variable (s : MamdaniFuzzySystem)
    (nm : String) (lo hi : ℚ) (n : ℕ) : MamdaniFuzzySystem :=
  { s with output_variables := alSet s.output_variables nm (mkFuzzyVariable nm lo hi n) }

/-- Embedding of `add_rule` (lines 205-209): append the rule, with no
validation of any kind. -/
def MamdaniFuzzySystem.add_rule (s : MamdaniFuzzySystem)
    (ant cons : List (String × String)) (w : ℚ) : MamdaniFuzzySystem :=
  { s with rules := s.rules ++ [⟨ant, cons, w⟩] }

/-- The adapter classes keep direct references to the variable objects that
also sit inside the system dictionaries and mutate them through those
references; with immutable data this aliasing is modelled by updating the
named input variable inside the system. -/
def MamdaniFuzzySystem.add_input_set (s : MamdaniFuzzySystem)
    (vr nm ty : String) (params : List ℚ) : Except String MamdaniFuzzySystem :=
  match alGet s.input_variables vr with
  | some v => (v.add_set nm ty params).map
      (fun v2 => { s with input_variables := alSet s.input_variables vr v2 })
  | none => .error "KeyError"

/-- Aliasing helper for output variables, as in `add_input_set`. -/
def MamdaniFuzzySystem.add_output_set (s : MamdaniFuzzySystem)
    (vr nm ty : String) (params : List ℚ) : Except String MamdaniFuzzySystem :=
  match alGet s.output_variables vr with
  | some v => (v.add_set nm ty params).map
      (fun v2 => { s with output_variables := alSet s.output_variables vr v2 })
  | none => .error "KeyError"

/-- Fuzzification stage of `evaluate` (lines 222-226): every input entry
whose name matches a declared input variable is fuzzified; entries with
unknown names are skipped. -/
def MamdaniFuzzySystem.fuzzifyInputs (s : MamdaniFuzzySystem)
    (inputs : List (String × ℚ)) : List (String × List (String × ℚ)) :=
  inputs.foldl (fun acc p =>
    match alGet s.input_variables p.1 with
    | some v => alSet acc p.1 (v.fuzzify p.2)
    | none => acc) []

/-- Initial aggregated strengths (lines 229-234): every declared output
set of every output variable starts at 0.0. -/
def MamdaniFuzzySystem.initAgg (s : MamdaniFuzzySystem) :
    List (String × List (String × ℚ)) :=
  s.output_variables.map (fun p => (p.1, p.2.sets.map (fun q => (q.1, (0 : ℚ)))))

/-- Inner aggregation update (lines 242-247):
`agg[set] = max(agg.get(set, 0.0), firing_strength)`. -/
def aggInner (inner : List (String × ℚ)) (outSets : List (String × ℚ)) :
    List (String × ℚ) :=
  outSets.foldl (fun cur q => alSet cur q.1 (max ((alGet cur q.1).getD 0) q.2)) inner

/-- Folding one rule output into the aggregate (lines 240-247): output
variables not declared in the system are silently skipped. -/
def aggStep (acc : List (String × List (String × ℚ)))
    (ruleOut : List (String × List (String × ℚ))) :
    List (String × List (String × ℚ)) :=
  ruleOut.foldl (fun a p =>
    match alGet a p.1 with
    | some inner => alSet a p.1 (aggInner inner p.2)
    | none => a) acc

/-- Rule evaluation and aggregation stage of `evaluate` (lines 236-247). -/
def MamdaniFuzzySystem.aggregate (s : MamdaniFuzzySystem)
    (inputs : List (String × ℚ)) :
    Except String (List (String × List (String × ℚ))) :=
  s.rules.foldlM (fun acc r => (r.evaluate (s.fuzzifyInputs inputs)).map (aggStep acc))
    s.initAgg

/-- One step of the implication fold of lines 260-268: a positive strength
truncates the named output set (`np.minimum` with the scalar strength) and
merges it into the running curve by pointwise `np.maximum`; strength zero
contributes nothing; a set name missing from the output variable raises
`KeyError` exactly as the Python subscript would. -/
def truncStep (ov : FuzzyVariable) (mf : List ℚ) (q : String × ℚ) :
    Except String (List ℚ) :=
  if 0 < q.2 then
    match alGet ov.sets q.1 with
    | some fs => .ok (List.zipWith max mf (fs.membership_values.map (fun y => min y q.2)))
    | none => .error "KeyError"
  else .ok mf

/-- Defuzzification of one output variable (lines 252-275): fold the
truncated curves, then Center of Area, falling back to the universe
midpoint when the aggregated curve sums to zero. -/
def FuzzyVariable.defuzz (ov : FuzzyVariable) (var_sets : List (String × ℚ)) :
    Except String ℚ := do
  let mf ← var_sets.foldlM (truncStep ov) (ov.univ.map (fun _ => (0 : ℚ)))
  if 0 < mf.sum then
    pure ((List.zipWith (fun a b => a * b) ov.univ mf).sum / mf.sum)
  else
    pure ((ov.univ.headD 0 + listLast ov.univ) / 2)

/-- Embedding of `MamdaniFuzzySystem.evaluate` (lines 211-277): fuzzify,
aggregate over the rules, then defuzzify each output variable. -/
def MamdaniFuzzySystem.evaluate (s : MamdaniFuzzySystem)
    (inputs : List (String × ℚ)) : Except String (List (String × ℚ)) := do
  let agg ← s.aggregate inputs
  agg.mapM (fun p => do
    match alGet s.output_variables p.1 with
    | some ov => do
        let c ← ov.defuzz p.2
        pure (p.1, c)
    | none => .error "KeyError")

/-- Embedding of the `CustomEventFuzzySystem` constructor
(custom_event_system.py lines 6-123): four input variables and one output
variable on [0, 100] with the default 100 samples, three triangular sets
per variable, and the twelve rules in source order. -/
def customEventSystem : Except String MamdaniFuzzySystem := do
  let s := MamdaniFuzzySystem.empty
  let s := s.add_input_variable "interest_match" 0 100 100
  let s := s.add_input_variable "location_proximity" 0 100 100
  let s := s.add_input_variable "time_overlap" 0 100 100
  let s := s.add_input_variable "budget_alignment" 0 100 100
  let s := s.add_output_variable "recommendation" 0 100 100
  let s ← s.add_input_set "interest_match" "low" "triangular" [0, 0, 40]
  let s ← s.add_input_set "interest_match" "medium" "triangular" [20, 50, 80]
  let s ← s.add_input_set "interest_match" "high" "triangular" [60, 100, 100]
  let s ← s.add_input_set "location_proximity" "far" "triangular" [0, 0, 40]
  let s ← s.add_input_set "location_proximity" "moderate" "triangular" [20, 50, 80]
  let s ← s.add_input_set "location_proximity" "near" "triangular" [60, 100, 100]
  let s ← s.add_input_set "time_overlap" "no_overlap" "triangular" [0, 0, 30]
  let s ← s.add_input_set "time_overlap" "partial" "triangular" [20, 50, 80]
  let s ← s.add_input_set "time_overlap" "complete" "triangular" [70, 100, 100]
  let s ← s.add_input_set "budget_alignment" "over_budget" "triangular" [0, 0, 30]
  let s ← s.add_input_set "budget_alignment" "at_limit" "triangular" [20, 50, 80]
  let s ← s.add_input_set "budget_alignment" "within_budget" "triangular" [70, 100, 100]
  let s ← s.add_output_set "recommendation" "low" "triangular" [0, 15, 30]
  let s ← s.add_output_set "recommendation" "medium" "triangular" [20, 45, 70]
  let s ← s.add_output_set "recommendation" "high" "triangular" [60, 80, 100]
  let s := s.add_rule
    [("interest_match", "high"), ("location_proximity", "near"),
     ("time_overlap", "complete"), ("budget_alignment", "within_budget"), ("op", "AND")]
    [("recommendation", "high")] 1
  let s := s.add_rule
    [("interest_match", "high"), ("location_proximity", "near"),
     ("time_overlap", "complete"), ("budget_alignment", "at_limit"), ("op", "AND")]
    [("recommendation", "high")] 1
  let s := s.add_rule
    [("interest_match", "high"), ("location_proximity", "near"),
     ("time_overlap", "partial"), ("budget_alignment", "within_budget"), ("op", "AND")]
    [("recommendation", "high")] 1
  let s := s.add_rule
    [("interest_match", "medium"), ("location_proximity", "near"),
     ("time_overlap", "complete"), ("budget_alignment", "within_budget"), ("op", "AND")]
    [("recommendation", "high")] 1
  let s := s.add_rule
    [("interest_match", "high"), ("location_proximity", "moderate"),
     ("time_overlap", "partial"), ("budget_alignment", "within_budget"), ("op", "AND")]
    [("recommendation", "medium")] 1
  let s := s.add_rule
    [("interest_match", "medium"), ("location_proximity", "moderate"),
     ("time_overlap", "partial"), ("budget_alignment", "at_limit"), ("op", "AND")]
    [("recommendation", "medium")] 1
  let s := s.add_rule [("interest_match", "low"), ("op", "OR")]
    [("recommendation", "low")] 1
  let s := s.add_rule [("time_overlap", "no_overlap"), ("op", "OR")]
    [("recommendation", "low")] 1
  let s := s.add_rule [("budget_alignment", "over_budget"), ("op", "OR")]
    [("recommendation", "low")] 1
  let s := s.add_rule [("interest_match", "low"), ("location_proximity", "far"), ("op", "AND")]
    [("recommendation", "low")] 1
  let s := s.add_rule
    [("interest_match", "medium"), ("location_proximity", "moderate"),
     ("time_overlap", "partial"), ("budget_alignment", "within_budget"), ("op", "AND")]
    [("recommendation", "medium")] 1
  let s := s.add_rule
    [("interest_match", "high"), ("location_proximity", "far"),
     ("time_overlap", "partial"), ("budget_alignment", "within_budget"), ("op", "AND")]
    [("recommendation", "medium")] 1
  pure s

/-- Embedding of `CustomEventFuzzySystem.evaluate` (custom_event_system.py
lines 125-148): feed the four crisp scores to the generic engine and return
the "recommendation" output (defaulting to 50 when absent). -/
def customEventEvaluate (interest proximity overlap budget : ℚ) : Except String ℚ := do
  let sys ← customEventSystem
  let outputs ← sys.evaluate
    [("interest_match", interest), ("location_proximity", proximity),
     ("time_overlap", overlap), ("budget_alignment", budget)]
  pure ((alGet outputs "recommendation").getD 50)

/-! ### Association-list lemmas -/

theorem alGet_cons {α : Type} (a : String) (v : α) (l : List (String × α)) (k : String) :
    alGet ((a, v) :: l) k = if a = k then some v else alGet l k := by
  by_cases h : a = k
  · simp [alGet, List.find?_cons, h]
  · simp [alGet, List.find?_cons, h]

theorem alGet_eq_none {α : Type} (l : List (String × α)) (k : String) :
    alGet l k = none ↔ ∀ p ∈ l, p.1 ≠ k := by
  simp [alGet, List.find?_eq_none]

theorem alGet_alSet_self {α : Type} (l : List (String × α)) (k : String) (v : α) :
    alGet (alSet l k v) k = some v := by
  rw [alSet]
  by_cases h : l.any (fun p => p.1 == k) = true
  · rw [if_pos h]
    induction l with
    | nil => simp at h
    | cons p t ih =>
      rcases p with ⟨a, w⟩
      by_cases ha : a = k
      · simp [ha, alGet_cons]
      · have ht : t.any (fun p => p.1 == k) = true := by
          simpa [List.any_cons, ha] using h
        simpa [ha, alGet_cons] using ih ht
  · rw [if_neg h]
    induction l with
    | nil => simp [alGet_cons]
    | cons p t ih =>
      rcases p with ⟨a, w⟩
      have ha : ¬ a = k := by
        intro hak
        exact h (by simp [List.any_cons, hak])
      have ht : ¬ t.any (fun p => p.1 == k) = true := by
        intro hh
        exact h (by simp [List.any_cons, hh])
      simpa [List.cons_append, alGet_cons, ha] using ih ht

theorem alGet_overwrite_ne {α : Type} (l : List (String × α)) (k k2 : String) (v : α)
    (hne : k ≠ k2) :
    alGet (l.map (fun p => if p.1 == k then (k, v) else p)) k2 = alGet l k2 := by
  induction l with
  | nil => rfl
  | cons p t ih =>
    rcases p with ⟨a, w⟩
    by_cases ha : a = k
    · simp only [List.map_cons, ha, beq_self_eq_true, if_true]
      rw [alGet_cons, alGet_cons, if_neg hne, if_neg (ha ▸ hne), ih]
    · simp only [List.map_cons, beq_eq_false_iff_ne.mpr ha, Bool.false_eq_true, if_false]
      rw [alGet_cons, alGet_cons, ih]

theorem alGet_append_single_ne {α : Type} (l : List (String × α)) (k k2 : String) (v : α)
    (hne : k ≠ k2) : alGet (l ++ [(k, v)]) k2 = alGet l k2 := by
  induction l with
  | nil => simp [alGet_cons, hne]
  | cons p t ih =>
    rcases p with ⟨a, w⟩
    rw [List.cons_append, alGet_cons, alGet_cons, ih]

theorem alGet_alSet_ne {α : Type} (l : List (String × α)) (k k2 : String) (v : α)
    (hne : k ≠ k2) : alGet (alSet l k v) k2 = alGet l k2 := by
  rw [alSet]
  by_cases h : l.any (fun p => p.1 == k) = true
  · rw [if_pos h, alGet_overwrite_ne l k k2 v hne]
  · rw [if_neg h, alGet_append_single_ne l k k2 v hne]

theorem alSet_map_fst_present {α : Type} (l : List (String × α)) (k : String) (v : α)
    (h : l.any (fun p => p.1 == k) = true) :
    (alSet l k v).map Prod.fst = l.map Prod.fst := by
  rw [alSet, if_pos h, List.map_map]
  apply List.map_congr_left
  intro p _
  by_cases hp : p.1 = k
  · simp [hp]
  · simp [hp]

/-! ### Linear-interpolation lemmas -/

theorem lininterp_right (x1 x2 y1 y2 : ℚ) (h12 : x1 < x2) :
    lininterp x1 x2 y1 y2 x2 = y2 := by
  have hd : x2 - x1 ≠ 0 := by linarith
  field_simp [lininterp]

theorem lininterp_mono_x (x1 x2 y1 y2 x y : ℚ) (h12 : x1 < x2) (hs : y1 ≤ y2)
    (hxy : x ≤ y) : lininterp x1 x2 y1 y2 x ≤ lininterp x1 x2 y1 y2 y := by
  have hd : (0:ℚ) < x2 - x1 := by linarith
  rw [lininterp, lininterp]
  apply add_le_add_left
  rw [div_le_div_iff_of_pos_right hd]
  apply mul_le_mul_of_nonneg_left (by linarith) (by linarith)

theorem lininterp_anti_x (x1 x2 y1 y2 x y : ℚ) (h12 : x1 < x2) (hs : y2 ≤ y1)
    (hxy : x ≤ y) : lininterp x1 x2 y1 y2 y ≤ lininterp x1 x2 y1 y2 x := by
  have hd : (0:ℚ) < x2 - x1 := by linarith
  rw [lininterp, lininterp]
  apply add_le_add_left
  rw [div_le_div_iff_of_pos_right hd]
  nlinarith

theorem lininterp_ge_left (x1 x2 y1 y2 x : ℚ) (h12 : x1 < x2) (hs : y1 ≤ y2)
    (hx : x1 ≤ x) : y1 ≤ lininterp x1 x2 y1 y2 x := by
  have hd : (0:ℚ) < x2 - x1 := by linarith
  rw [lininterp]
  have : 0 ≤ (y2 - y1) * (x - x1) / (x2 - x1) :=
    div_nonneg (mul_nonneg (by linarith) (by linarith)) (by linarith)
  linarith

theorem lininterp_le_right (x1 x2 y1 y2 x : ℚ) (h12 : x1 < x2) (hs : y1 ≤ y2)
    (hx : x ≤ x2) : lininterp x1 x2 y1 y2 x ≤ y2 := by
  have hd : (0:ℚ) < x2 - x1 := by linarith
  rw [lininterp]
  have h1 : (y2 - y1) * (x - x1) / (x2 - x1) ≤ (y2 - y1) * (x2 - x1) / (x2 - x1) := by
    rw [div_le_div_iff_of_pos_right hd]
    apply mul_le_mul_of_nonneg_left (by linarith) (by linarith)
  have h2 : (y2 - y1) * (x2 - x1) / (x2 - x1) = y2 - y1 := by
    field_simp
  linarith

theorem lininterp_le_left_anti (x1 x2 y1 y2 x : ℚ) (h12 : x1 < x2) (hs : y2 ≤ y1)
    (hx : x1 ≤ x) : lininterp x1 x2 y1 y2 x ≤ y1 := by
  have hd : (0:ℚ) < x2 - x1 := by linarith
  rw [lininterp]
  have : (y2 - y1) * (x - x1) / (x2 - x1) ≤ 0 :=
    div_nonpos_of_nonpos_of_nonneg (mul_nonpos_of_nonpos_of_nonneg (by linarith) (by linarith))
      (by linarith)
  linarith

theorem lininterp_ge_right_anti (x1 x2 y1 y2 x : ℚ) (h12 : x1 < x2) (hs : y2 ≤ y1)
    (hx : x ≤ x2) : y2 ≤ lininterp x1 x2 y1 y2 x := by
  have hd : (0:ℚ) < x2 - x1 := by linarith
  rw [lininterp]
  have h1 : (y2 - y1) * (x2 - x1) / (x2 - x1) ≤ (y2 - y1) * (x - x1) / (x2 - x1) := by
    rw [div_le_div_iff_of_pos_right hd]
    nlinarith
  have h2 : (y2 - y1) * (x2 - x1) / (x2 - x1) = y2 - y1 := by
    field_simp
  linarith

theorem lininterp_bounds (x1 x2 y1 y2 x : ℚ) (h12 : x1 < x2) (hx1 : x1 ≤ x)
    (hx2 : x ≤ x2) :
    min y1 y2 ≤ lininterp x1 x2 y1 y2 x ∧ lininterp x1 x2 y1 y2 x ≤ max y1 y2 := by
  rcases le_total y1 y2 with hs | hs
  · constructor
    · exact le_trans (min_le_left y1 y2) (lininterp_ge_left x1 x2 y1 y2 x h12 hs hx1)
    · exact le_trans (lininterp_le_right x1 x2 y1 y2 x h12 hs hx2) (le_max_right y1 y2)
  · constructor
    · exact le_trans (min_le_right y1 y2) (lininterp_ge_right_anti x1 x2 y1 y2 x h12 hs hx2)
    · exact le_trans (lininterp_le_left_anti x1 x2 y1 y2 x h12 hs hx1) (le_max_left y1 y2)

/-! ### Structure of `FuzzySet.membership` over a sorted universe -/

theorem sorted_head_lt_tail {a : ℚ} {t : List ℚ} (hs : List.Sorted (· < ·) (a :: t)) :
    ∀ z ∈ t, a < z := by
  intro z hz
  exact (List.sorted_cons.mp hs).1 z hz

theorem listLast_single (a : ℚ) : listLast [a] = a := rfl

theorem listLast_cons_cons (a b : ℚ) (l : List ℚ) :
    listLast (a :: b :: l) = listLast (b :: l) := by
  simp only [listLast, List.getLastD_cons]

theorem listLast_mem (l : List ℚ) (h : l ≠ []) : listLast l ∈ l := by
  induction l with
  | nil => exact absurd rfl h
  | cons a t ih =>
    rcases t with _ | ⟨b, t2⟩
    · simp [listLast_single]
    · rw [listLast_cons_cons]
      exact List.mem_cons_of_mem a (ih (by simp))

theorem membership_single (nm : String) (a v : ℚ) (x : ℚ) :
    FuzzySet.membership ⟨nm, [a], [v]⟩ x = v := by
  rcases le_or_lt x a with h | h
  · simp [FuzzySet.membership, h]
  · simp [FuzzySet.membership, not_le_of_lt h, le_of_lt h, listLast_single]

theorem membership_cons (nm : String) (u1 u2 : ℚ) (r : List ℚ) (v1 v2 : ℚ) (w : List ℚ)
    (hlen : w.length = r.length)
    (hs : List.Sorted (· < ·) (u1 :: u2 :: r)) (x : ℚ) (hx : u1 < x) :
    FuzzySet.membership ⟨nm, u1 :: u2 :: r, v1 :: v2 :: w⟩ x =
      if x ≤ u2 then lininterp u1 u2 v1 v2 x
      else FuzzySet.membership ⟨nm, u2 :: r, v2 :: w⟩ x := by
  have h12 : u1 < u2 := (List.sorted_cons.mp hs).1 u2 (by simp)
  have hr : ∀ z ∈ r, u2 < z := sorted_head_lt_tail (List.sorted_cons.mp hs).2
  have hnotle : ¬ x ≤ u1 := not_le_of_lt hx
  by_cases hxu2 : x ≤ u2
  · rw [if_pos hxu2]
    rcases r with _ | ⟨z, r2⟩
    · have hw : w = [] := by simpa using hlen
      subst hw
      rcases lt_or_eq_of_le hxu2 with hlt | heq
      · have hL : ¬ listLast [u1, u2] ≤ x := by
          rw [listLast_cons_cons, listLast_single]
          exact not_le_of_lt hlt
        simp [FuzzySet.membership, hnotle, hL, List.countP_cons, hx, lt_asymm hlt]
      · have hL : listLast [u1, u2] ≤ x := by
          rw [listLast_cons_cons, listLast_single, heq]
        simp only [FuzzySet.membership, List.headD_cons]
        rw [if_neg hnotle, if_pos hL, listLast_cons_cons, listLast_single, heq,
          lininterp_right u1 u2 v1 v2 h12]
    · have hxlast : ¬ listLast (u1 :: u2 :: z :: r2) ≤ x := by
        rw [listLast_cons_cons]
        have hmem : listLast (u2 :: z :: r2) ∈ z :: r2 := by
          rw [listLast_cons_cons]
          exact listLast_mem (z :: r2) (by simp)
        exact not_le_of_lt (lt_of_le_of_lt hxu2 (hr _ hmem))
      have hcr : ∀ z2 ∈ z :: r2, ¬ z2 < x := by
        intro z2 hz2
        exact not_lt.mpr (le_of_lt (lt_of_le_of_lt hxu2 (hr z2 hz2)))
      simp only [FuzzySet.membership, List.headD_cons]
      rw [if_neg hnotle, if_neg hxlast]
      have hcnt : List.countP (fun u => decide (u < x)) (u1 :: u2 :: z :: r2) = 1 := by
        rw [List.countP_cons_of_pos _ _ (by simpa using hx),
          List.countP_cons_of_neg _ _ (by simpa using not_lt.mpr hxu2),
          List.countP_eq_zero.mpr (by simpa using hcr)]
      simp [hcnt]
  · rw [if_neg hxu2]
    push_neg at hxu2
    have hnot2 : ¬ x ≤ u2 := not_le_of_lt hxu2
    have hlastEq : listLast (u1 :: u2 :: r) = listLast (u2 :: r) :=
      listLast_cons_cons u1 u2 r
    simp only [FuzzySet.membership, List.headD_cons]
    rw [if_neg hnotle, if_neg hnot2]
    by_cases hlast : listLast (u2 :: r) ≤ x
    · have hL2 : listLast (u1 :: u2 :: r) ≤ x := by
        rw [hlastEq]
        exact hlast
      rw [if_pos hL2, if_pos hlast, listLast_cons_cons]
    · have hL2 : ¬ listLast (u1 :: u2 :: r) ≤ x := by
        rw [hlastEq]
        exact hlast
      rw [if_neg hL2, if_neg hlast]
      have hstep : List.countP (fun u => decide (u < x)) (u1 :: u2 :: r) =
          List.countP (fun u => decide (u < x)) (u2 :: r) + 1 :=
        List.countP_cons_of_pos _ _ (by simpa using hx)
      have hcnt2 : 1 ≤ List.countP (fun u => decide (u < x)) (u2 :: r) := by
        rw [List.countP_cons_of_pos _ _ (by simpa using hxu2)]
        omega
      rcases Nat.exists_eq_add_of_le hcnt2 with ⟨m, hm⟩
      have hm2 : List.countP (fun u => decide (u < x)) (u2 :: r) = m + 1 := by omega
      rw [hstep, hm2]
      simp [List.getD_cons_succ]

theorem map_shape (g : ℚ → ℚ) (a : ℚ) (t : List ℚ) :
    (a :: t).map g = g a :: t.map g := rfl

theorem membership_map_at_mem (nm : String) (g : ℚ → ℚ) (u : List ℚ)
    (hs : List.Sorted (· < ·) u) (z : ℚ) (hz : z ∈ u) :
    FuzzySet.membership ⟨nm, u, u.map g⟩ z = g z := by
  induction u with
  | nil => cases hz
  | cons a t ih =>
    rcases List.mem_cons.mp hz with hza | hz2
    · rcases t with _ | ⟨b, r⟩
      · rw [hza, show [a].map g = [g a] from rfl, membership_single]
      · have hle : z ≤ a := le_of_eq hza
        simp [FuzzySet.membership, hle, hza]
    · rcases t with _ | ⟨b, r⟩
      · cases hz2
      · have ha : a < z := sorted_head_lt_tail hs z hz2
        rw [show ((a :: b :: r).map g) = g a :: g b :: r.map g from rfl]
        rw [membership_cons nm a b r (g a) (g b) (r.map g) (by simp) hs z ha]
        rcases List.mem_cons.mp hz2 with hzb | hz3
        · rw [if_pos (le_of_eq hzb)]
          have hab : a < b := (List.sorted_cons.mp hs).1 b (by simp)
          rw [hzb, lininterp_right a b (g a) (g b) hab]
        · have hbz : b < z :=
            sorted_head_lt_tail (List.sorted_cons.mp hs).2 z hz3
          rw [if_neg (not_le_of_lt hbz)]
          exact ih (List.sorted_cons.mp hs).2 hz2

theorem membership_map_bounds (nm : String) (g : ℚ → ℚ) (u : List ℚ) (lo hi : ℚ)
    (hs : List.Sorted (· < ·) u) (hne : u ≠ [])
    (hg : ∀ z, lo ≤ g z ∧ g z ≤ hi) (x : ℚ) :
    lo ≤ FuzzySet.membership ⟨nm, u, u.map g⟩ x ∧
      FuzzySet.membership ⟨nm, u, u.map g⟩ x ≤ hi := by
  induction u with
  | nil => exact absurd rfl hne
  | cons a t ih =>
    rcases t with _ | ⟨b, r⟩
    · rw [show [a].map g = [g a] from rfl, membership_single]
      exact hg a
    · by_cases hxa : x ≤ a
      · have : FuzzySet.membership ⟨nm, a :: b :: r, (a :: b :: r).map g⟩ x = g a := by
          simp [FuzzySet.membership, hxa]
        rw [this]
        exact hg a
      · push_neg at hxa
        rw [show ((a :: b :: r).map g) = g a :: g b :: r.map g from rfl]
        rw [membership_cons nm a b r (g a) (g b) (r.map g) (by simp) hs x hxa]
        by_cases hxb : x ≤ b
        · rw [if_pos hxb]
          have hab : a < b := (List.sorted_cons.mp hs).1 b (by simp)
          have hbd := lininterp_bounds a b (g a) (g b) x hab (le_of_lt hxa) hxb
          constructor
          · exact le_trans (le_min (hg a).1 (hg b).1) hbd.1
          · exact le_trans hbd.2 (max_le (hg a).2 (hg b).2)
        · rw [if_neg hxb]
          exact ih (List.sorted_cons.mp hs).2 (by simp)

theorem membership_head_eval (nm : String) (g : ℚ → ℚ) (a : ℚ) (t : List ℚ) (x : ℚ)
    (hxa : x ≤ a) :
    FuzzySet.membership ⟨nm, a :: t, (a :: t).map g⟩ x = g a := by
  simp [FuzzySet.membership, hxa]

theorem membership_map_mono_le (nm : String) (g : ℚ → ℚ) (u : List ℚ) :
    List.Sorted (· < ·) u → ∀ hi, hi ∈ u →
    (∀ p q, p ≤ q → q ≤ hi → g p ≤ g q) → ∀ x y, x ≤ y → y ≤ hi →
    FuzzySet.membership ⟨nm, u, u.map g⟩ x ≤ FuzzySet.membership ⟨nm, u, u.map g⟩ y := by
  induction u with
  | nil =>
    intro _ hi hhi
    cases hhi
  | cons a t ih =>
    intro hs hi hhi hg x y hxy hy
    rcases t with _ | ⟨b, r⟩
    · rw [show [a].map g = [g a] from rfl, membership_single, membership_single]
    · have hab : a < b := (List.sorted_cons.mp hs).1 b (by simp)
      have hst : List.Sorted (· < ·) (b :: r) := (List.sorted_cons.mp hs).2
      by_cases hya : y ≤ a
      · rw [membership_head_eval nm g a (b :: r) x (le_trans hxy hya),
          membership_head_eval nm g a (b :: r) y hya]
      · push_neg at hya
        have hhit : hi ∈ b :: r := by
          rcases List.mem_cons.mp hhi with hia | hit
          · exact absurd (lt_of_lt_of_le hya (hia ▸ hy)) (lt_irrefl a)
          · exact hit
        have hbhi : b ≤ hi := by
          rcases List.mem_cons.mp hhit with hib | hir
          · exact le_of_eq (hib.symm)
          · exact le_of_lt (sorted_head_lt_tail hst hi hir)
        have hgab : g a ≤ g b := hg a b (le_of_lt hab) hbhi
        have hMtb : FuzzySet.membership ⟨nm, b :: r, (b :: r).map g⟩ b = g b :=
          membership_head_eval nm g b r b (le_refl b)
        rw [show ((a :: b :: r).map g) = g a :: g b :: r.map g from rfl]
        rw [membership_cons nm a b r (g a) (g b) (r.map g) (by simp) hs y hya]
        by_cases hxa : x ≤ a
        · rw [show (g a :: g b :: r.map g) = (a :: b :: r).map g from rfl]
          rw [membership_head_eval nm g a (b :: r) x hxa]
          by_cases hyb : y ≤ b
          · rw [if_pos hyb]
            exact lininterp_ge_left a b (g a) (g b) y hab hgab (le_of_lt hya)
          · push_neg at hyb
            rw [if_neg (not_le_of_lt hyb)]
            calc g a ≤ g b := hgab
              _ = FuzzySet.membership ⟨nm, b :: r, (b :: r).map g⟩ b := hMtb.symm
              _ ≤ FuzzySet.membership ⟨nm, b :: r, (b :: r).map g⟩ y :=
                ih hst hi hhit hg b y (le_of_lt hyb) hy
        · push_neg at hxa
          rw [membership_cons nm a b r (g a) (g b) (r.map g) (by simp) hs x hxa]
          by_cases hxb : x ≤ b
          · rw [if_pos hxb]
            by_cases hyb : y ≤ b
            · rw [if_pos hyb]
              exact lininterp_mono_x a b (g a) (g b) x y hab hgab hxy
            · push_neg at hyb
              rw [if_neg (not_le_of_lt hyb)]
              calc lininterp a b (g a) (g b) x
                  ≤ g b := lininterp_le_right a b (g a) (g b) x hab hgab hxb
                _ = FuzzySet.membership ⟨nm, b :: r, (b :: r).map g⟩ b := hMtb.symm
                _ ≤ FuzzySet.membership ⟨nm, b :: r, (b :: r).map g⟩ y :=
                  ih hst hi hhit hg b y (le_of_lt hyb) hy
          · push_neg at hxb
            rw [if_neg (not_le_of_lt hxb)]
            have hyb : ¬ y ≤ b := not_le_of_lt (lt_of_lt_of_le hxb hxy)
            rw [if_neg hyb]
            exact ih hst hi hhit hg x y hxy hy

theorem membership_map_anti_ge (nm : String) (g : ℚ → ℚ) (u : List ℚ) :
    List.Sorted (· < ·) u → ∀ lo, lo ∈ u →
    (∀ p q, lo ≤ p → p ≤ q → g q ≤ g p) → ∀ x y, lo ≤ x → x ≤ y →
    FuzzySet.membership ⟨nm, u, u.map g⟩ y ≤ FuzzySet.membership ⟨nm, u, u.map g⟩ x := by
  induction u with
  | nil =>
    intro _ lo hlo
    cases hlo
  | cons a t ih =>
    intro hs lo hlo hg x y hx hxy
    rcases t with _ | ⟨b, r⟩
    · rw [show [a].map g = [g a] from rfl, membership_single, membership_single]
    · have hab : a < b := (List.sorted_cons.mp hs).1 b (by simp)
      have hst : List.Sorted (· < ·) (b :: r) := (List.sorted_cons.mp hs).2
      have hMtb : FuzzySet.membership ⟨nm, b :: r, (b :: r).map g⟩ b = g b :=
        membership_head_eval nm g b r b (le_refl b)
      by_cases hya : y ≤ a
      · rw [membership_head_eval nm g a (b :: r) x (le_trans hxy hya),
          membership_head_eval nm g a (b :: r) y hya]
      · push_neg at hya
        rw [show ((a :: b :: r).map g) = g a :: g b :: r.map g from rfl]
        rw [membership_cons nm a b r (g a) (g b) (r.map g) (by simp) hs y hya]
        rcases List.mem_cons.mp hlo with hla | hlt
        · -- the antitone region starts at the first sample
          have hga : ∀ p q, a ≤ p → p ≤ q → g q ≤ g p := by
            intro p q hap hpq
            refine hg p q ?_ hpq
            rw [hla]
            exact hap
          have hgba : g b ≤ g a := hga a b (le_refl a) (le_of_lt hab)
          have hgt : ∀ p q, b ≤ p → p ≤ q → g q ≤ g p := by
            intro p q hbp hpq
            exact hga p q (le_trans (le_of_lt hab) hbp) hpq
          by_cases hxa : x ≤ a
          · rw [show (g a :: g b :: r.map g) = (a :: b :: r).map g from rfl,
              membership_head_eval nm g a (b :: r) x hxa]
            by_cases hyb : y ≤ b
            · rw [if_pos hyb]
              exact lininterp_le_left_anti a b (g a) (g b) y hab hgba (le_of_lt hya)
            · push_neg at hyb
              rw [if_neg (not_le_of_lt hyb)]
              calc FuzzySet.membership ⟨nm, b :: r, (b :: r).map g⟩ y
                  ≤ FuzzySet.membership ⟨nm, b :: r, (b :: r).map g⟩ b :=
                    ih hst b (by simp) hgt b y (le_refl b) (le_of_lt hyb)
                _ = g b := hMtb
                _ ≤ g a := hgba
          · push_neg at hxa
            rw [membership_cons nm a b r (g a) (g b) (r.map g) (by simp) hs x hxa]
            by_cases hxb : x ≤ b
            · rw [if_pos hxb]
              by_cases hyb : y ≤ b
              · rw [if_pos hyb]
                exact lininterp_anti_x a b (g a) (g b) x y hab hgba hxy
              · push_neg at hyb
                rw [if_neg (not_le_of_lt hyb)]
                calc FuzzySet.membership ⟨nm, b :: r, (b :: r).map g⟩ y
                    ≤ FuzzySet.membership ⟨nm, b :: r, (b :: r).map g⟩ b :=
                      ih hst b (by simp) hgt b y (le_refl b) (le_of_lt hyb)
                  _ = g b := hMtb
                  _ ≤ lininterp a b (g a) (g b) x :=
                    lininterp_ge_right_anti a b (g a) (g b) x hab hgba hxb
            · push_neg at hxb
              have hyb : ¬ y ≤ b := not_le_of_lt (lt_of_lt_of_le hxb hxy)
              rw [if_neg (not_le_of_lt hxb), if_neg hyb]
              exact ih hst b (by simp) hgt x y (le_of_lt hxb) hxy
        · -- the antitone region starts inside the tail
          have hblo : b ≤ lo := by
            rcases List.mem_cons.mp hlt with hlb | hlr
            · exact le_of_eq hlb.symm
            · exact le_of_lt (sorted_head_lt_tail hst lo hlr)
          have hbx : b ≤ x := le_trans hblo hx
          have hax : a < x := lt_of_lt_of_le hab hbx
          rw [membership_cons nm a b r (g a) (g b) (r.map g) (by simp) hs x hax]
          by_cases hxb : x ≤ b
          · have hxb2 : x = b := le_antisymm hxb hbx
            have hloeq : lo = b := le_antisymm (le_trans hx hxb) hblo
            rw [if_pos hxb]
            by_cases hyb : y ≤ b
            · have hyx : y = x := le_antisymm (by rw [hxb2]; exact hyb) hxy
              rw [hyx, if_pos hxb]
            · push_neg at hyb
              rw [if_neg (not_le_of_lt hyb)]
              have hgt2 : ∀ p q, b ≤ p → p ≤ q → g q ≤ g p := by
                intro p q hbp hpq
                refine hg p q ?_ hpq
                rw [hloeq]
                exact hbp
              calc FuzzySet.membership ⟨nm, b :: r, (b :: r).map g⟩ y
                  ≤ FuzzySet.membership ⟨nm, b :: r, (b :: r).map g⟩ b :=
                    ih hst b (by simp) hgt2 b y (le_refl b) (le_of_lt hyb)
                _ = g b := hMtb
                _ = lininterp a b (g a) (g b) x := by
                    rw [hxb2, lininterp_right a b (g a) (g b) hab]
          · push_neg at hxb
            have hyb : ¬ y ≤ b := not_le_of_lt (lt_of_lt_of_le hxb hxy)
            rw [if_neg (not_le_of_lt hxb), if_neg hyb]
            exact ih hst lo hlt hg x y hx hxy

/-! ### Shape-function lemmas -/

theorem triangularVal_nonneg (a b c x : ℚ) : 0 ≤ triangularVal a b c x := by
  rw [triangularVal]
  split_ifs with h1 h2 h3
  · exact le_refl 0
  · exact div_nonneg (by linarith [h2.1]) (by linarith [h2.1, h2.2])
  · exact div_nonneg (by linarith [h3.2]) (by linarith [h3.1, h3.2])
  · exact le_refl 0

theorem triangularVal_le_one (a b c x : ℚ) : triangularVal a b c x ≤ 1 := by
  rw [triangularVal]
  split_ifs with h1 h2 h3
  · exact zero_le_one
  · exact (div_le_one (by linarith [h2.1, h2.2])).mpr (by linarith [h2.2])
  · exact (div_le_one (by linarith [h3.1, h3.2])).mpr (by linarith [h3.1])
  · exact zero_le_one

theorem trapezoidalVal_nonneg (a b c d x : ℚ) : 0 ≤ trapezoidalVal a b c d x := by
  rw [trapezoidalVal]
  split_ifs with h1 h2 h3 h4
  · exact le_refl 0
  · exact div_nonneg (by linarith [h2.1]) (by linarith [h2.1, h2.2])
  · exact zero_le_one
  · exact div_nonneg (by linarith [h4.2]) (by linarith [h4.1, h4.2])
  · exact le_refl 0

theorem trapezoidalVal_le_one (a b c d x : ℚ) : trapezoidalVal a b c d x ≤ 1 := by
  rw [trapezoidalVal]
  split_ifs with h1 h2 h3 h4
  · exact zero_le_one
  · exact (div_le_one (by linarith [h2.1, h2.2])).mpr (by linarith [h2.2])
  · exact le_refl 1
  · exact (div_le_one (by linarith [h4.1, h4.2])).mpr (by linarith [h4.1])
  · exact zero_le_one

theorem expTaylor_ge_one (t : ℚ) (ht : 0 ≤ t) : 1 ≤ expTaylor t := by
  rw [expTaylor]
  have hmem : (1 : ℚ) ∈ (List.range 20).map (fun k => t ^ k / (Nat.factorial k : ℚ)) := by
    have h0 : (0 : ℕ) ∈ List.range 20 := by decide
    have : (fun k => t ^ k / (Nat.factorial k : ℚ)) 0 = 1 := by
      norm_num [Nat.factorial]
    exact this ▸ List.mem_map_of_mem _ h0
  apply List.single_le_sum _ _ hmem
  intro q hq
  rcases List.mem_map.mp hq with ⟨k, _, hk⟩
  rw [← hk]
  exact div_nonneg (pow_nonneg ht k) (by positivity)

theorem expQ_nonpos_bounds (x : ℚ) (hx : x ≤ 0) : 0 ≤ expQ x ∧ expQ x ≤ 1 := by
  rw [expQ, if_pos hx]
  have h1 : (1 : ℚ) ≤ expTaylor (-x) := expTaylor_ge_one (-x) (by linarith)
  have h0 : (0 : ℚ) < expTaylor (-x) := lt_of_lt_of_le one_pos h1
  constructor
  · exact le_of_lt (div_pos one_pos h0)
  · exact (div_le_one h0).mpr h1

theorem gaussianVal_nonneg (m sg x : ℚ) : 0 ≤ gaussianVal m sg x := by
  rw [gaussianVal]
  refine (expQ_nonpos_bounds _ ?_).1
  exact div_nonpos_of_nonpos_of_nonneg (by nlinarith [sq_nonneg (x - m)]) (by positivity)

theorem gaussianVal_le_one (m sg x : ℚ) : gaussianVal m sg x ≤ 1 := by
  rw [gaussianVal]
  refine (expQ_nonpos_bounds _ ?_).2
  exact div_nonpos_of_nonpos_of_nonneg (by nlinarith [sq_nonneg (x - m)]) (by positivity)

theorem triangularVal_zero_left (a b c x : ℚ) (h : x ≤ a) : triangularVal a b c x = 0 := by
  rw [triangularVal, if_pos (Or.inl h)]

theorem triangularVal_zero_right (a b c x : ℚ) (h : c ≤ x) : triangularVal a b c x = 0 := by
  rw [triangularVal, if_pos (Or.inr h)]

theorem triangularVal_peak (a b c : ℚ) (hab : a < b) (hbc : b < c) :
    triangularVal a b c b = 1 := by
  rw [triangularVal, if_neg (by push_neg; exact ⟨hab, hbc⟩),
    if_pos ⟨hab, le_refl b⟩]
  exact div_self (by linarith)

theorem triangularVal_rise (a b c x : ℚ) (hax : a < x) (hxb : x ≤ b) (hbc : b < c) :
    triangularVal a b c x = (x - a) / (b - a) := by
  rw [triangularVal, if_neg (by push_neg; exact ⟨hax, lt_of_le_of_lt hxb hbc⟩),
    if_pos ⟨hax, hxb⟩]

theorem triangularVal_fall (a b c x : ℚ) (hab : a < b) (hbx : b < x) (hxc : x < c) :
    triangularVal a b c x = (c - x) / (c - b) := by
  rw [triangularVal, if_neg (by push_neg; exact ⟨lt_trans hab hbx, hxc⟩),
    if_neg (by push_neg; intro h; linarith), if_pos ⟨hbx, hxc⟩]

theorem triangularVal_mono_left (a b c : ℚ) (hab : a < b) (hbc : b < c) :
    ∀ p q, p ≤ q → q ≤ b → triangularVal a b c p ≤ triangularVal a b c q := by
  intro p q hpq hqb
  by_cases hqa : q ≤ a
  · rw [triangularVal_zero_left a b c p (le_trans hpq hqa),
      triangularVal_zero_left a b c q hqa]
  · push_neg at hqa
    rw [triangularVal_rise a b c q hqa hqb hbc]
    by_cases hpa : p ≤ a
    · rw [triangularVal_zero_left a b c p hpa]
      exact div_nonneg (by linarith) (by linarith)
    · push_neg at hpa
      rw [triangularVal_rise a b c p hpa (le_trans hpq hqb) hbc]
      rw [div_le_div_iff_of_pos_right (by linarith)]
      linarith

theorem triangularVal_anti_right (a b c : ℚ) (hab : a < b) (hbc : b < c) :
    ∀ p q, b ≤ p → p ≤ q → triangularVal a b c q ≤ triangularVal a b c p := by
  intro p q hbp hpq
  by_cases hcp : c ≤ p
  · rw [triangularVal_zero_right a b c p hcp,
      triangularVal_zero_right a b c q (le_trans hcp hpq)]
  · push_neg at hcp
    by_cases hcq : c ≤ q
    · rw [triangularVal_zero_right a b c q hcq]
      exact triangularVal_nonneg a b c p
    · push_neg at hcq
      rcases eq_or_lt_of_le hbp with hbp2 | hbp2
      · rw [← hbp2, triangularVal_peak a b c hab hbc]
        exact triangularVal_le_one a b c q
      · rw [triangularVal_fall a b c p hab hbp2 hcp,
          triangularVal_fall a b c q hab (lt_of_lt_of_le hbp2 hpq) hcq]
        rw [div_le_div_iff_of_pos_right (by linarith)]
        linarith

/-! ### Flat extrapolation at the universe edges -/

theorem membership_flat_head (nm : String) (u vs : List ℚ) (x : ℚ) (h : x ≤ u.headD 0) :
    FuzzySet.membership ⟨nm, u, vs⟩ x = vs.headD 0 := by
  rw [FuzzySet.membership]
  dsimp only
  rw [if_pos h]

theorem membership_flat_last (nm : String) (u vs : List ℚ) (x : ℚ)
    (hs : List.Sorted (· < ·) u) (hne : u ≠ []) (hlen : vs.length = u.length)
    (h : listLast u ≤ x) :
    FuzzySet.membership ⟨nm, u, vs⟩ x = listLast vs := by
  rcases u with _ | ⟨a, t⟩
  · exact absurd rfl hne
  · rcases t with _ | ⟨b, r⟩
    · have : ∃ v, vs = [v] := by
        rcases vs with _ | ⟨v, vs2⟩
        · simp at hlen
        · rcases vs2 with _ | ⟨v2, vs3⟩
          · exact ⟨v, rfl⟩
          · simp at hlen
      rcases this with ⟨v, rfl⟩
      rw [membership_single, listLast_single]
    · have hmem : listLast (a :: b :: r) ∈ b :: r := by
        rw [listLast_cons_cons]
        exact listLast_mem _ (by simp)
      have hax : a < x := lt_of_lt_of_le (sorted_head_lt_tail hs _ hmem) h
      simp only [FuzzySet.membership, List.headD_cons]
      rw [if_neg (not_le_of_lt hax), if_pos h]

/-- C4: for every FuzzySet built by one of the three shape constructors over
a sorted nonempty universe, `membership x` lies in [0, 1] for every crisp
`x`; it equals the first stored sample degree for every `x` at or below the
first universe sample and the last stored degree for every `x` at or above
the last sample; out-of-range inputs follow those same flat branches and
are never rejected (membership is a total function). -/
theorem spec_C4_membership_bounds_and_flat (nm : String) (u vs : List ℚ) (s : FuzzySet)
    (hs : List.Sorted (· < ·) u) (hne : u ≠ [])
    (hbuilt : (∃ a b c, s = FuzzySet.triangular ⟨nm, u, vs⟩ a b c) ∨
      (∃ a b c d, s = FuzzySet.trapezoidal ⟨nm, u, vs⟩ a b c d) ∨
      (∃ m sg, s = FuzzySet.gaussian ⟨nm, u, vs⟩ m sg)) (x : ℚ) :
    (0 ≤ s.membership x ∧ s.membership x ≤ 1) ∧
    (x ≤ u.headD 0 → s.membership x = s.membership_values.headD 0) ∧
    (listLast u ≤ x → s.membership x = listLast s.membership_values) := by
  have hmain : ∃ g : ℚ → ℚ, s = ⟨nm, u, u.map g⟩ ∧ ∀ z, 0 ≤ g z ∧ g z ≤ 1 := by
    rcases hbuilt with ⟨a, b, c, rfl⟩ | ⟨a, b, c, d, rfl⟩ | ⟨m, sg, rfl⟩
    · exact ⟨triangularVal a b c, rfl,
        fun z => ⟨triangularVal_nonneg a b c z, triangularVal_le_one a b c z⟩⟩
    · exact ⟨trapezoidalVal a b c d, rfl,
        fun z => ⟨trapezoidalVal_nonneg a b c d z, trapezoidalVal_le_one a b c d z⟩⟩
    · exact ⟨gaussianVal m sg, rfl,
        fun z => ⟨gaussianVal_nonneg m sg z, gaussianVal_le_one m sg z⟩⟩
  rcases hmain with ⟨g, rfl, hg⟩
  refine ⟨membership_map_bounds nm g u 0 1 hs hne hg x, ?_, ?_⟩
  · intro hx
    exact membership_flat_head nm u (u.map g) x hx
  · intro hx
    exact membership_flat_last nm u (u.map g) x hs hne (by simp) hx

theorem spec_C4_witness :
    (0 ≤ (FuzzySet.triangular ⟨"t", [0, 1, 2], [0, 0, 0]⟩ 0 1 2).membership (1/2) ∧
      (FuzzySet.triangular ⟨"t", [0, 1, 2], [0, 0, 0]⟩ 0 1 2).membership (1/2) ≤ 1) ∧
    ((1:ℚ)/2 ≤ ([0, 1, 2] : List ℚ).headD 0 →
      (FuzzySet.triangular ⟨"t", [0, 1, 2], [0, 0, 0]⟩ 0 1 2).membership (1/2) =
        (FuzzySet.triangular ⟨"t", [0, 1, 2], [0, 0, 0]⟩ 0 1 2).membership_values.headD 0) ∧
    (listLast [0, 1, 2] ≤ (1:ℚ)/2 →
      (FuzzySet.triangular ⟨"t", [0, 1, 2], [0, 0, 0]⟩ 0 1 2).membership (1/2) =
        listLast (FuzzySet.triangular ⟨"t", [0, 1, 2], [0, 0, 0]⟩ 0 1 2).membership_values) :=
  spec_C4_membership_bounds_and_flat "t" [0, 1, 2] [0, 0, 0]
    (FuzzySet.triangular ⟨"t", [0, 1, 2], [0, 0, 0]⟩ 0 1 2)
    (by norm_num [List.sorted_cons]) (by simp) (Or.inl ⟨0, 1, 2, rfl⟩) (1/2)

/-- C5 counterexample: over the universe [0, 1, 2, 3] the triangular set
with a = 1/2 < b = 3/2 < c = 5/2 has membership 1/2 at its own peak b,
because b falls between two universe samples, so `membership(b) == 1`
fails for this shape over this universe. -/
theorem spec_C5_counterexample :
    (1:ℚ)/2 < 3/2 ∧ (3:ℚ)/2 < 5/2 ∧
    (FuzzySet.triangular ⟨"t", [0, 1, 2, 3], [0, 0, 0, 0]⟩ (1/2) (3/2) (5/2)).membership
      (3/2) ≠ 1 := by
  refine ⟨by norm_num, by norm_num, ?_⟩
  have h1 : FuzzySet.triangular ⟨"t", [0, 1, 2, 3], [0, 0, 0, 0]⟩ (1/2) (3/2) (5/2) =
      ⟨"t", [0, 1, 2, 3], [0, 1/2, 1/2, 0]⟩ := by
    norm_num [FuzzySet.triangular, triangularVal]
  rw [h1]
  have h2 : FuzzySet.membership ⟨"t", [0, 1, 2, 3], [0, 1/2, 1/2, 0]⟩ (3/2) = 1/2 := by
    norm_num [FuzzySet.membership, listLast, List.getLastD, List.countP_cons, lininterp,
      List.getD]
  rw [h2]
  norm_num

/-- C5 (amended): for a triangular(a,b,c) set with a < b < c over a sorted
universe, the claimed endpoint values `membership(a) = 0`,
`membership(b) = 1`, `membership(c) = 0` hold whenever a, b and c are
themselves universe samples (the counterexample shows they fail otherwise),
and membership is monotone non-decreasing on [a, b] and non-increasing on
[b, c]. -/
theorem spec_C5_triangular_shape_amended (nm : String) (u vs : List ℚ) (a b c : ℚ)
    (hs : List.Sorted (· < ·) u) (hab : a < b) (hbc : b < c)
    (ha : a ∈ u) (hb : b ∈ u) (hc : c ∈ u) :
    ((FuzzySet.triangular ⟨nm, u, vs⟩ a b c).membership a = 0) ∧
    ((FuzzySet.triangular ⟨nm, u, vs⟩ a b c).membership b = 1) ∧
    ((FuzzySet.triangular ⟨nm, u, vs⟩ a b c).membership c = 0) ∧
    (∀ x y, a ≤ x → x ≤ y → y ≤ b →
      (FuzzySet.triangular ⟨nm, u, vs⟩ a b c).membership x ≤
        (FuzzySet.triangular ⟨nm, u, vs⟩ a b c).membership y) ∧
    (∀ x y, b ≤ x → x ≤ y → y ≤ c →
      (FuzzySet.triangular ⟨nm, u, vs⟩ a b c).membership y ≤
        (FuzzySet.triangular ⟨nm, u, vs⟩ a b c).membership x) := by
  have hsEq : FuzzySet.triangular ⟨nm, u, vs⟩ a b c =
      ⟨nm, u, u.map (triangularVal a b c)⟩ := rfl
  rw [hsEq]
  refine ⟨?_, ?_, ?_, ?_, ?_⟩
  · rw [membership_map_at_mem nm (triangularVal a b c) u hs a ha]
    exact triangularVal_zero_left a b c a (le_refl a)
  · rw [membership_map_at_mem nm (triangularVal a b c) u hs b hb]
    exact triangularVal_peak a b c hab hbc
  · rw [membership_map_at_mem nm (triangularVal a b c) u hs c hc]
    exact triangularVal_zero_right a b c c (le_refl c)
  · intro x y hax hxy hyb
    exact membership_map_mono_le nm (triangularVal a b c) u hs b hb
      (triangularVal_mono_left a b c hab hbc) x y hxy hyb
  · intro x y hbx hxy hyc
    exact membership_map_anti_ge nm (triangularVal a b c) u hs b hb
      (triangularVal_anti_right a b c hab hbc) x y hbx hxy

theorem spec_C5_witness :
    ((FuzzySet.triangular ⟨"t", [0, 1, 2, 3], [0, 0, 0, 0]⟩ 0 1 2).membership 0 = 0) ∧
    ((FuzzySet.triangular ⟨"t", [0, 1, 2, 3], [0, 0, 0, 0]⟩ 0 1 2).membership 1 = 1) ∧
    ((FuzzySet.triangular ⟨"t", [0, 1, 2, 3], [0, 0, 0, 0]⟩ 0 1 2).membership 2 = 0) := by
  have h := spec_C5_triangular_shape_amended "t" [0, 1, 2, 3] [0, 0, 0, 0] 0 1 2
    (by norm_num [List.sorted_cons]) (by norm_num) (by norm_num)
    (by norm_num) (by norm_num) (by norm_num)
  exact ⟨h.1, h.2.1, h.2.2.1⟩

/-! ### Rule evaluation -/

theorem pyUpper_AND : pyUpper "AND" = "AND" := by decide

theorem pyUpper_OR : pyUpper "OR" = "OR" := by decide

theorem rule_eval_and (w d1 d2 : ℚ) :
    FuzzyRule.evaluate ⟨[("X", "x"), ("Y", "y"), ("op", "AND")], [("Z", "z")], w⟩
      [("X", [("x", d1)]), ("Y", [("y", d2)])] =
      .ok [("Z", [("z", min d1 d2 * w)])] := rfl

theorem rule_eval_or (w d1 d2 : ℚ) :
    FuzzyRule.evaluate ⟨[("X", "x"), ("Y", "y"), ("op", "OR")], [("Z", "z")], w⟩
      [("X", [("x", d1)]), ("Y", [("y", d2)])] =
      .ok [("Z", [("z", max d1 d2 * w)])] := rfl

theorem rule_eval_empty (w : ℚ) (f : List (String × List (String × ℚ))) :
    FuzzyRule.evaluate ⟨[("op", "AND")], [("Z", "z")], w⟩ f =
      .ok [("Z", [("z", 0 * w)])] := rfl

/-- C3: FuzzyRule.evaluate combines the collected antecedent degrees by
minimum under AND and maximum under OR, yields 0.0 when no degrees are
collected, and multiplies the combined degree by the rule weight; on the
degrees X ↦ 0.3, Y ↦ 0.8 an AND rule fires at 0.3 and an OR rule at 0.8,
and weight 0.5 halves these to 0.15 and 0.4. -/
theorem spec_C3_rule_and_or_weight :
    (∀ w d1 d2 : ℚ,
      FuzzyRule.evaluate ⟨[("X", "x"), ("Y", "y"), ("op", "AND")], [("Z", "z")], w⟩
        [("X", [("x", d1)]), ("Y", [("y", d2)])] =
        .ok [("Z", [("z", min d1 d2 * w)])]) ∧
    (∀ w d1 d2 : ℚ,
      FuzzyRule.evaluate ⟨[("X", "x"), ("Y", "y"), ("op", "OR")], [("Z", "z")], w⟩
        [("X", [("x", d1)]), ("Y", [("y", d2)])] =
        .ok [("Z", [("z", max d1 d2 * w)])]) ∧
    (∀ (w : ℚ) (f : List (String × List (String × ℚ))),
      FuzzyRule.evaluate ⟨[("op", "AND")], [("Z", "z")], w⟩ f =
        .ok [("Z", [("z", 0)])]) ∧
    (FuzzyRule.evaluate ⟨[("X", "x"), ("Y", "y"), ("op", "AND")], [("Z", "z")], 1⟩
      [("X", [("x", 3/10)]), ("Y", [("y", 8/10)])] = .ok [("Z", [("z", 3/10)])]) ∧
    (FuzzyRule.evaluate ⟨[("X", "x"), ("Y", "y"), ("op", "OR")], [("Z", "z")], 1⟩
      [("X", [("x", 3/10)]), ("Y", [("y", 8/10)])] = .ok [("Z", [("z", 8/10)])]) ∧
    (FuzzyRule.evaluate ⟨[("X", "x"), ("Y", "y"), ("op", "AND")], [("Z", "z")], 1/2⟩
      [("X", [("x", 3/10)]), ("Y", [("y", 8/10)])] = .ok [("Z", [("z", 3/20)])]) ∧
    (FuzzyRule.evaluate ⟨[("X", "x"), ("Y", "y"), ("op", "OR")], [("Z", "z")], 1/2⟩
      [("X", [("x", 3/10)]), ("Y", [("y", 8/10)])] = .ok [("Z", [("z", 2/5)])]) := by
  refine ⟨rule_eval_and, rule_eval_or, ?_, ?_, ?_, ?_, ?_⟩
  · intro w f
    rw [rule_eval_empty w f, zero_mul]
  · rw [rule_eval_and 1 (3/10) (8/10)]
    norm_num [min_def]
  · rw [rule_eval_or 1 (3/10) (8/10)]
    norm_num [max_def]
  · rw [rule_eval_and (1/2) (3/10) (8/10)]
    norm_num [min_def]
  · rw [rule_eval_or (1/2) (3/10) (8/10)]
    norm_num [max_def]

/-! ### Aggregation infrastructure -/

theorem except_map_ok {α β : Type} (e : Except String α) (f : α → β) (y : β)
    (h : e.map f = .ok y) : ∃ x, e = .ok x ∧ f x = y := by
  rcases e with er | x
  · simp [Except.map] at h
  · simp [Except.map] at h
    exact ⟨x, rfl, h⟩

theorem alGet_eq_none_iff_fst {α : Type} (l : List (String × α)) (k : String) :
    alGet l k = none ↔ k ∉ l.map Prod.fst := by
  rw [alGet_eq_none]
  constructor
  · intro h hk
    rcases List.mem_map.mp hk with ⟨p, hp, hpk⟩
    exact h p hp hpk
  · intro h p hp hpk
    exact h (List.mem_map.mpr ⟨p, hp, hpk⟩)

theorem alGet_some_any {α : Type} (l : List (String × α)) (k : String) (v : α)
    (h : alGet l k = some v) : l.any (fun p => p.1 == k) = true := by
  induction l with
  | nil => simp [alGet] at h
  | cons p t ih =>
    rcases p with ⟨a, w⟩
    rw [alGet_cons] at h
    by_cases ha : a = k
    · simp [List.any_cons, ha]
    · rw [if_neg ha] at h
      simp [List.any_cons, ih h]

theorem aggStep_map_fst (acc ruleOut : List (String × List (String × ℚ))) :
    (aggStep acc ruleOut).map Prod.fst = acc.map Prod.fst := by
  rw [aggStep]
  induction ruleOut generalizing acc with
  | nil => rfl
  | cons p ro ih =>
    rw [List.foldl_cons]
    rcases hp : alGet acc p.1 with _ | inner
    · exact ih acc
    · exact (ih (alSet acc p.1 (aggInner inner p.2))).trans
        (alSet_map_fst_present acc p.1 (aggInner inner p.2) (alGet_some_any acc p.1 inner hp))

theorem initAgg_map_fst (s : MamdaniFuzzySystem) :
    s.initAgg.map Prod.fst = s.output_variables.map Prod.fst := by
  rw [MamdaniFuzzySystem.initAgg, List.map_map]
  exact List.map_congr_left (fun p _ => rfl)

theorem foldlM_aggStep_ok_map_fst (step : List (String × List (String × ℚ)) → FuzzyRule →
      Except String (List (String × List (String × ℚ))))
    (hstep : ∀ acc r out, step acc r = .ok out → out.map Prod.fst = acc.map Prod.fst)
    (rs : List FuzzyRule) :
    ∀ acc agg, List.foldlM step acc rs = .ok agg →
      agg.map Prod.fst = acc.map Prod.fst := by
  induction rs with
  | nil =>
    intro acc agg h
    rw [List.foldlM_nil] at h
    cases h
    rfl
  | cons r rs ih =>
    intro acc agg h
    rw [List.foldlM_cons] at h
    rcases he : step acc r with er | mid
    · rw [he] at h
      have hb : (do
          let init ← (Except.error er : Except String (List (String × List (String × ℚ))))
          List.foldlM step init rs) = Except.error er := rfl
      rw [hb] at h
      cases h
    · rw [he] at h
      have hb : (do
          let init ← (Except.ok mid : Except String (List (String × List (String × ℚ))))
          List.foldlM step init rs) = List.foldlM step mid rs := rfl
      rw [hb] at h
      exact (ih mid agg h).trans (hstep acc r mid he)

theorem aggregate_ok_map_fst (s : MamdaniFuzzySystem) (inputs : List (String × ℚ))
    (agg : List (String × List (String × ℚ))) (h : s.aggregate inputs = .ok agg) :
    agg.map Prod.fst = s.output_variables.map Prod.fst := by
  rw [MamdaniFuzzySystem.aggregate] at h
  rw [← initAgg_map_fst s]
  refine foldlM_aggStep_ok_map_fst _ ?_ s.rules s.initAgg agg h
  intro acc r out hout
  rcases except_map_ok _ _ _ hout with ⟨ro, _, hro⟩
  rw [← hro]
  exact aggStep_map_fst acc ro

theorem except_bind_ok {α β : Type} (x : α) (k : α → Except String β) :
    ((Except.ok x : Except String α) >>= k) = k x := rfl

theorem except_bind_error {α β : Type} (e : String) (k : α → Except String β) :
    ((Except.error e : Except String α) >>= k) = Except.error e := rfl

theorem rule_evaluate_ok_shape (r : FuzzyRule) (f : List (String × List (String × ℚ)))
    (ro : List (String × List (String × ℚ))) (h : r.evaluate f = .ok ro) :
    ∃ fs, ro = r.consequent.map (fun p => (p.1, [(p.2, fs * r.weight)])) := by
  rw [FuzzyRule.evaluate] at h
  rcases except_map_ok _ _ _ h with ⟨fs, _, hfs⟩
  exact ⟨fs, hfs.symm⟩

theorem aggStep_skip (acc ruleOut : List (String × List (String × ℚ)))
    (h : ∀ p ∈ ruleOut, alGet acc p.1 = none) : aggStep acc ruleOut = acc := by
  rw [aggStep]
  induction ruleOut with
  | nil => rfl
  | cons p ro ih =>
    rw [List.foldl_cons]
    have hp : alGet acc p.1 = none := h p (by simp)
    rw [hp]
    exact ih (fun q hq => h q (List.mem_cons_of_mem p hq))


theorem except_bind_ok2 {α β : Type} (x : α) (k : α → Except String β) :
    Except.bind (Except.ok x : Except String α) k = k x := rfl

theorem foldlM_truncStep_no_fire (ov : FuzzyVariable) (vsets : List (String × ℚ))
    (mf : List ℚ) (h : ∀ q ∈ vsets, ¬ 0 < q.2) :
    List.foldlM (truncStep ov) mf vsets = .ok mf := by
  induction vsets generalizing mf with
  | nil => rfl
  | cons q t ih =>
    rw [List.foldlM_cons, truncStep, if_neg (h q (by simp)), except_bind_ok]
    exact ih mf (fun q2 hq2 => h q2 (List.mem_cons_of_mem q hq2))

theorem sum_map_zero (l : List ℚ) : (l.map (fun _ => (0 : ℚ))).sum = 0 := by
  induction l with
  | nil => rfl
  | cons a t ih => simp [ih]

/-- When no output set has positive aggregated strength, defuzzification
returns the universe midpoint (lines 273-275). -/
theorem defuzz_no_fire (ov : FuzzyVariable) (vsets : List (String × ℚ))
    (h : ∀ q ∈ vsets, ¬ 0 < q.2) :
    ov.defuzz vsets = .ok ((ov.univ.headD 0 + listLast ov.univ) / 2) := by
  rw [FuzzyVariable.defuzz, foldlM_truncStep_no_fire ov vsets _ h, except_bind_ok,
    sum_map_zero, if_neg (lt_irrefl 0)]
  rfl

theorem evaluate_singleton_output (S : MamdaniFuzzySystem) (nm : String)
    (v : FuzzyVariable) (inputs : List (String × ℚ)) (inner : List (String × ℚ)) (c : ℚ)
    (hagg : S.aggregate inputs = .ok [(nm, inner)])
    (hv : alGet S.output_variables nm = some v)
    (hdef : v.defuzz inner = .ok c) :
    S.evaluate inputs = .ok [(nm, c)] := by
  rw [MamdaniFuzzySystem.evaluate, hagg, except_bind_ok]
  rw [List.mapM_cons]
  show Except.bind (match alGet S.output_variables nm with
    | some ov => Except.bind (ov.defuzz inner) (fun c => Except.ok (nm, c))
    | none => Except.error "KeyError") _ = _
  rw [hv]
  show Except.bind (Except.bind (v.defuzz inner) (fun c => Except.ok (nm, c))) _ = _
  rw [hdef]
  rfl

/-- A one-output system (output "score" on [0, 10] with 3 samples and one
triangular set) built through the configuration API, used as a concrete
test fixture. -/
def scoreSystemE : Except String MamdaniFuzzySystem :=
  (MamdaniFuzzySystem.empty.add_output_variable "score" 0 10 3).add_output_set
    "score" "ok" "triangular" [0, 5, 10]

/-- The fixture written out as a plain value. -/
def scoreVar : FuzzyVariable :=
  ⟨"score", linspace 0 10 3,
    [("ok", FuzzySet.triangular
      ⟨"ok", linspace 0 10 3, (linspace 0 10 3).map (fun _ => 0)⟩ 0 5 10)]⟩

/-- The fixture system: no inputs, one output variable, no rules. -/
def scoreSystem : MamdaniFuzzySystem := ⟨[], [("score", scoreVar)], []⟩

theorem scoreSystemE_eq : scoreSystemE = .ok scoreSystem := rfl

theorem linspace_0_10_3 : linspace 0 10 3 = [0, 5, 10] := by
  norm_num [linspace, List.range_succ]

theorem scoreVar_midpoint : ((scoreVar.univ.headD 0 + listLast scoreVar.univ) / 2 : ℚ) = 5 := by
  norm_num [scoreVar, linspace_0_10_3, listLast, List.getLastD]

/-- C6 counterexample: adding a rule whose consequent references the
undeclared output variable "bogus" does not fail: `add_rule` appends the
rule without validation (the rule base then has one rule), and the
subsequent `evaluate` call completes normally, returning the midpoint 5 of
the output universe with the foreign consequent silently skipped — so no
ConfigurationError is raised at system-build time, contrary to the claim. -/
theorem spec_C6_counterexample :
    (scoreSystemE.map
      (fun s => (s.add_rule [("op", "AND")] [("bogus", "x")] 1).rules.length) = .ok 1) ∧
    (scoreSystemE.bind
      (fun s => (s.add_rule [("op", "AND")] [("bogus", "x")] 1).evaluate []) =
      .ok [("score", 5)]) := by
  refine ⟨rfl, ?_⟩
  rw [scoreSystemE_eq, except_bind_ok2]
  have hagg : (scoreSystem.add_rule [("op", "AND")] [("bogus", "x")] 1).aggregate [] =
      .ok [("score", [("ok", (0 : ℚ))])] := rfl
  have hdef : scoreVar.defuzz [("ok", (0 : ℚ))] = .ok 5 := by
    rw [defuzz_no_fire scoreVar [("ok", 0)] (by simp)]
    rw [scoreVar_midpoint]
  exact evaluate_singleton_output _ "score" scoreVar [] [("ok", 0)] 5 hagg rfl hdef

/-- C6 (amended): `add_rule` performs no validation at all — the rule is
appended to the rule base as given — and a rule whose consequent references
only undeclared output variables is silently skipped by the aggregation
loop during `evaluate`, so it neither raises an error nor changes the
result of `evaluate`. -/
theorem spec_C6_unknown_consequent_ignored (s : MamdaniFuzzySystem)
    (ant cons : List (String × String)) (w : ℚ) (inputs : List (String × ℚ))
    (ro : List (String × List (String × ℚ)))
    (hok : FuzzyRule.evaluate ⟨ant, cons, w⟩ (s.fuzzifyInputs inputs) = .ok ro)
    (hunk : ∀ p ∈ cons, alGet s.output_variables p.1 = none) :
    (s.add_rule ant cons w).rules = s.rules ++ [⟨ant, cons, w⟩] ∧
    (s.add_rule ant cons w).evaluate inputs = s.evaluate inputs := by
  refine ⟨rfl, ?_⟩
  have hagg : (s.add_rule ant cons w).aggregate inputs = s.aggregate inputs := by
    have h1 : (s.add_rule ant cons w).aggregate inputs =
        List.foldlM (fun acc r => (r.evaluate (s.fuzzifyInputs inputs)).map (aggStep acc))
          s.initAgg (s.rules ++ [⟨ant, cons, w⟩]) := rfl
    have h2 : s.aggregate inputs =
        List.foldlM (fun acc r => (r.evaluate (s.fuzzifyInputs inputs)).map (aggStep acc))
          s.initAgg s.rules := rfl
    rw [h1, h2, List.foldlM_append]
    rcases hagg0 : List.foldlM
        (fun acc r => (r.evaluate (s.fuzzifyInputs inputs)).map (aggStep acc))
        s.initAgg s.rules with er | agg
    · rw [hagg0]
      rfl
    · rw [hagg0, except_bind_ok]
      have haggOk : s.aggregate inputs = .ok agg := by
        rw [h2]
        exact hagg0
      have hkeys : agg.map Prod.fst = s.output_variables.map Prod.fst :=
        aggregate_ok_map_fst s inputs agg haggOk
      have hskip : aggStep agg ro = agg := by
        apply aggStep_skip
        intro p hp
        rcases rule_evaluate_ok_shape _ _ ro hok with ⟨fs, hro⟩
        rw [hro] at hp
        rcases List.mem_map.mp hp with ⟨q, hq, hpq⟩
        rw [alGet_eq_none_iff_fst, hkeys, ← alGet_eq_none_iff_fst, ← hpq]
        exact hunk q hq
      rw [List.foldlM_cons, hok]
      have hmap : Except.map (aggStep agg)
          (Except.ok ro : Except String (List (String × List (String × ℚ)))) =
          Except.ok (aggStep agg ro) := rfl
      rw [hmap, except_bind_ok, List.foldlM_nil, hskip]
      rfl
  rw [MamdaniFuzzySystem.evaluate, MamdaniFuzzySystem.evaluate, hagg]
  rfl

theorem spec_C6_witness :
    (MamdaniFuzzySystem.empty.add_rule [("op", "AND")] [("bogus", "x")] 1).rules =
      MamdaniFuzzySystem.empty.rules ++ [⟨[("op", "AND")], [("bogus", "x")], 1⟩] ∧
    (MamdaniFuzzySystem.empty.add_rule [("op", "AND")] [("bogus", "x")] 1).evaluate [] =
      MamdaniFuzzySystem.empty.evaluate [] :=
  spec_C6_unknown_consequent_ignored MamdaniFuzzySystem.empty
    [("op", "AND")] [("bogus", "x")] 1 [] [("bogus", [("x", 0 * 1)])] rfl
    (fun _p _ => rfl)

/-- C7 counterexample: constructing a Gaussian set with the non-positive
sigma -1 succeeds — `add_set` returns the updated variable and raises
nothing — so no ConfigurationError occurs at build time, contrary to the
claim. -/
theorem spec_C7_counterexample :
    FuzzyVariable.add_set ⟨"g", [0, 1, 2], []⟩ "gs" "gaussian" [1, -1] =
      .ok { name := "g", univ := ([0, 1, 2] : List ℚ),
            sets := [("gs", ⟨"gs", [0, 1, 2], ([0, 1, 2] : List ℚ).map (gaussianVal 1 (-1))⟩)] } := rfl

/-- C7 (amended): `add_set` with the "gaussian" shape performs no sigma
validation whatsoever: for every variable, set name, mean and sigma —
including sigma ≤ 0 — it succeeds, storing the set whose samples are
computed from the formula with sigma squared; there is no ConfigurationError
path for a non-positive sigma at build time. -/
theorem spec_C7_gaussian_no_sigma_validation (v : FuzzyVariable) (nm : String) (m sg : ℚ) :
    FuzzyVariable.add_set v nm "gaussian" [m, sg] =
      .ok { v with sets := alSet v.sets nm ⟨nm, v.univ, v.univ.map (gaussianVal m sg)⟩ } := rfl

/-- C8: soft-miss behaviour.  An `evaluate` input entry whose name matches
no declared input variable is silently ignored (the result is unchanged if
such an entry is appended); an antecedent term whose variable, or whose set
within a present variable, is absent from the fuzzified inputs contributes
degree 0.0; and a rule whose operator resolves to AND or OR always
evaluates successfully, whatever the fuzzified inputs, so misses never
raise and inference completes. -/
theorem spec_C8_soft_miss :
    (∀ (s : MamdaniFuzzySystem) (inputs : List (String × ℚ)) (nm : String) (x : ℚ),
      alGet s.input_variables nm = none →
      s.evaluate (inputs ++ [(nm, x)]) = s.evaluate inputs) ∧
    (∀ (f : List (String × List (String × ℚ))) (vr st : String),
      alGet f vr = none → termDegree f vr st = 0) ∧
    (∀ (f : List (String × List (String × ℚ))) (vr st : String) (d : List (String × ℚ)),
      alGet f vr = some d → alGet d st = none → termDegree f vr st = 0) ∧
    (∀ (r : FuzzyRule) (f : List (String × List (String × ℚ))),
      (pyUpper ((alGet r.antecedent "op").getD "AND") = "AND" ∨
        pyUpper ((alGet r.antecedent "op").getD "AND") = "OR") →
      ∃ out, r.evaluate f = .ok out) := by
  refine ⟨?_, ?_, ?_, ?_⟩
  · intro s inputs nm x hnone
    have hfz : s.fuzzifyInputs (inputs ++ [(nm, x)]) = s.fuzzifyInputs inputs := by
      rw [MamdaniFuzzySystem.fuzzifyInputs, MamdaniFuzzySystem.fuzzifyInputs,
        List.foldl_append, List.foldl_cons]
      dsimp only
      rw [hnone, List.foldl_nil]
    have hagg : s.aggregate (inputs ++ [(nm, x)]) = s.aggregate inputs := by
      rw [MamdaniFuzzySystem.aggregate, MamdaniFuzzySystem.aggregate, hfz]
    rw [MamdaniFuzzySystem.evaluate, MamdaniFuzzySystem.evaluate, hagg]
  · intro f vr st hnone
    rw [termDegree, hnone]
    rfl
  · intro f vr st d hsome hnone
    have hd : (Option.getD (some d) ([] : List (String × ℚ))) = d := rfl
    rw [termDegree, hsome, hd, hnone]
    rfl
  · intro r f hop
    rw [FuzzyRule.evaluate]
    rcases hop with hop | hop
    · rw [hop]
      exact ⟨_, rfl⟩
    · rw [hop]
      exact ⟨_, rfl⟩

theorem spec_C8_witness :
    (scoreSystem.evaluate ([] ++ [("zzz", 0)]) = scoreSystem.evaluate []) ∧
    (termDegree [] "V" "low" = 0) ∧
    (termDegree [("V", [])] "V" "low" = 0) ∧
    (∃ out, FuzzyRule.evaluate ⟨[("V", "low"), ("op", "AND")], [("Z", "z")], 1⟩ [] =
      .ok out) :=
  ⟨spec_C8_soft_miss.1 scoreSystem [] "zzz" 0 rfl,
   spec_C8_soft_miss.2.1 [] "V" "low" rfl,
   spec_C8_soft_miss.2.2.1 [("V", [])] "V" "low" [] rfl rfl,
   spec_C8_soft_miss.2.2.2 ⟨[("V", "low"), ("op", "AND")], [("Z", "z")], 1⟩ []
     (Or.inl (by decide))⟩

/-- The aggregated strength recorded for one output set (0.0 when the
variable or set is absent). -/
def strengthOf (agg : List (String × List (String × ℚ))) (ov os : String) : ℚ :=
  (alGet ((alGet agg ov).getD []) os).getD 0

theorem alGetD_alSet_max (cur : List (String × ℚ)) (k os : String) (v : ℚ) :
    (alGet cur os).getD 0 ≤
      (alGet (alSet cur k (max ((alGet cur k).getD 0) v)) os).getD 0 := by
  by_cases hk : k = os
  · subst hk
    rw [alGet_alSet_self]
    exact le_max_left _ _
  · rw [alGet_alSet_ne cur k os _ hk]

theorem aggInner_mono (outSets : List (String × ℚ)) :
    ∀ (cur : List (String × ℚ)) (os : String),
      (alGet cur os).getD 0 ≤ (alGet (aggInner cur outSets) os).getD 0 := by
  induction outSets with
  | nil =>
    intro cur os
    exact le_refl _
  | cons q t ih =>
    intro cur os
    have h1 : aggInner cur (q :: t) =
        aggInner (alSet cur q.1 (max ((alGet cur q.1).getD 0) q.2)) t := rfl
    rw [h1]
    exact le_trans (alGetD_alSet_max cur q.1 os q.2)
      (ih (alSet cur q.1 (max ((alGet cur q.1).getD 0) q.2)) os)

theorem aggStep_mono (ruleOut : List (String × List (String × ℚ))) :
    ∀ (acc : List (String × List (String × ℚ))) (ov os : String),
      strengthOf acc ov os ≤ strengthOf (aggStep acc ruleOut) ov os := by
  induction ruleOut with
  | nil =>
    intro acc ov os
    exact le_refl _
  | cons p t ih =>
    intro acc ov os
    rcases hp : alGet acc p.1 with _ | inner
    · have h1 : aggStep acc (p :: t) = aggStep acc t := by
        rw [aggStep, aggStep, List.foldl_cons, hp]
      rw [h1]
      exact ih acc ov os
    · have h1 : aggStep acc (p :: t) = aggStep (alSet acc p.1 (aggInner inner p.2)) t := by
        rw [aggStep, aggStep, List.foldl_cons, hp]
      rw [h1]
      refine le_trans ?_ (ih (alSet acc p.1 (aggInner inner p.2)) ov os)
      by_cases hov : p.1 = ov
      · subst hov
        rw [strengthOf, strengthOf, alGet_alSet_self, hp]
        exact aggInner_mono p.2 inner os
      · rw [strengthOf, strengthOf, alGet_alSet_ne acc p.1 ov _ hov]

/-- C9: appending one rule (with non-negative weight) to the rule base can
only raise every per-output-set aggregated strength: max-aggregation never
lowers a strength. -/
theorem spec_C9_aggregation_monotone (s : MamdaniFuzzySystem)
    (ant cons : List (String × String)) (w : ℚ) (inputs : List (String × ℚ))
    (agg agg2 : List (String × List (String × ℚ)))
    (hw : 0 ≤ w)
    (h1 : s.aggregate inputs = .ok agg)
    (h2 : (s.add_rule ant cons w).aggregate inputs = .ok agg2) :
    ∀ ov os, strengthOf agg ov os ≤ strengthOf agg2 ov os := by
  intro ov os
  have h2f : ((do
      let init ← List.foldlM
        (fun (acc : List (String × List (String × ℚ))) (r : FuzzyRule) =>
          (r.evaluate (s.fuzzifyInputs inputs)).map (aggStep acc))
        s.initAgg s.rules
      List.foldlM
        (fun (acc : List (String × List (String × ℚ))) (r : FuzzyRule) =>
          (r.evaluate (s.fuzzifyInputs inputs)).map (aggStep acc))
        init [(⟨ant, cons, w⟩ : FuzzyRule)]) :
      Except String (List (String × List (String × ℚ)))) = .ok agg2 := by
    rw [← List.foldlM_append]
    exact h2
  have h1f : List.foldlM
      (fun (acc : List (String × List (String × ℚ))) (r : FuzzyRule) =>
        (r.evaluate (s.fuzzifyInputs inputs)).map (aggStep acc))
      s.initAgg s.rules = .ok agg := h1
  rw [h1f, except_bind_ok, List.foldlM_cons] at h2f
  rcases he : FuzzyRule.evaluate ⟨ant, cons, w⟩ (s.fuzzifyInputs inputs) with er | ro
  · rw [he] at h2f
    cases h2f
  · rw [he] at h2f
    have hred : (Except.map (aggStep agg)
        (Except.ok ro : Except String (List (String × List (String × ℚ)))) >>=
        fun b => List.foldlM
          (fun (acc : List (String × List (String × ℚ))) (r : FuzzyRule) =>
            (r.evaluate (s.fuzzifyInputs inputs)).map (aggStep acc)) b []) =
        Except.ok (aggStep agg ro) := rfl
    rw [hred] at h2f
    cases h2f
    exact aggStep_mono ro agg ov os

theorem spec_C9_witness :
    strengthOf [("score", [("ok", (0 : ℚ))])] "score" "ok" ≤
      strengthOf [("score", [("ok", max (0 : ℚ) (0 * 1))])] "score" "ok" :=
  spec_C9_aggregation_monotone scoreSystem [("op", "AND")] [("score", "ok")] 1 []
    [("score", [("ok", 0)])] [("score", [("ok", max 0 (0 * 1))])]
    (by norm_num) rfl rfl "score" "ok"

/-! ### Defuzzification refinement (spec transcription vs code) -/

theorem foldr_max_absorb (l : List ℚ) (a b : ℚ) :
    List.foldr max (max a b) l = max a (List.foldr max b l) := by
  induction l with
  | nil => rfl
  | cons c t ih =>
    rw [List.foldr_cons, List.foldr_cons, ih, max_left_comm]

theorem foldl_max_eq_foldr (l : List ℚ) : ∀ a, List.foldl max a l = List.foldr max a l := by
  induction l with
  | nil =>
    intro a
    rfl
  | cons x t ih =>
    intro a
    rw [List.foldl_cons, ih (max a x), List.foldr_cons, max_comm a x, foldr_max_absorb]

/-- Specification-side transcription of §4.4 step 3: for every universe
sample index, the pointwise-max merge of the curves `min(values[i],
strength)` of the output sets with positive aggregated strength. -/
def specTruncCurve (ov : FuzzyVariable) (var_sets : List (String × ℚ)) : List ℚ :=
  (List.range ov.univ.length).map (fun i =>
    ((var_sets.filter (fun q => decide (0 < q.2))).map (fun q =>
      min (((alGet ov.sets q.1).getD ⟨"", [], []⟩).membership_values.getD i 0) q.2)).foldr
      max 0)

/-- Specification-side transcription of §4.4 step 4: the Center of Area
`sum(universe[i] * aggregated[i]) / sum(aggregated[i])` when the aggregated
curve has positive sum, and the universe midpoint otherwise — the division
is performed only under the positivity guard. -/
def specDefuzz (ov : FuzzyVariable) (var_sets : List (String × ℚ)) : ℚ :=
  let curve := specTruncCurve ov var_sets
  if 0 < curve.sum then
    (List.zipWith (fun a b => a * b) ov.univ curve).sum / curve.sum
  else (ov.univ.headD 0 + listLast ov.univ) / 2

theorem trunc_fold_spec (ov : FuzzyVariable) :
    ∀ (var_sets : List (String × ℚ)) (mf : List ℚ), mf.length = ov.univ.length →
    (∀ q ∈ var_sets, ∃ fs, alGet ov.sets q.1 = some fs ∧
      fs.membership_values.length = ov.univ.length) →
    ∃ mf2, List.foldlM (truncStep ov) mf var_sets = .ok mf2 ∧
      mf2.length = ov.univ.length ∧
      ∀ i : ℕ, i < ov.univ.length → mf2.getD i 0 =
        List.foldl max (mf.getD i 0)
          ((var_sets.filter (fun q => decide (0 < q.2))).map (fun q =>
            min (((alGet ov.sets q.1).getD ⟨"", [], []⟩).membership_values.getD i 0) q.2)) := by
  intro var_sets
  induction var_sets with
  | nil =>
    intro mf hlen _
    exact ⟨mf, rfl, hlen, fun i _ => rfl⟩
  | cons q t ih =>
    intro mf hlen hwf
    rcases hwf q (by simp) with ⟨fs, hfs, hfslen⟩
    by_cases hq : 0 < q.2
    · have hstep : truncStep ov mf q =
          .ok (List.zipWith max mf (fs.membership_values.map (fun y => min y q.2))) := by
        rw [truncStep, if_pos hq, hfs]
      have hlen2 : (List.zipWith max mf
          (fs.membership_values.map (fun y => min y q.2))).length = ov.univ.length := by
        simp [List.length_zipWith, hlen, hfslen]
      rcases ih (List.zipWith max mf (fs.membership_values.map (fun y => min y q.2)))
          hlen2 (fun q2 hq2 => hwf q2 (List.mem_cons_of_mem q hq2)) with
        ⟨mf2, hfold, hlen3, hpt⟩
      refine ⟨mf2, ?_, hlen3, ?_⟩
      · rw [List.foldlM_cons, hstep, except_bind_ok]
        exact hfold
      · intro i hi
        rw [hpt i hi]
        have hzip : (List.zipWith max mf
            (fs.membership_values.map (fun y => min y q.2))).getD i 0 =
            max (mf.getD i 0) (min (fs.membership_values.getD i 0) q.2) := by
          have h1 : i < mf.length := by omega
          have h2 : i < (fs.membership_values.map (fun y => min y q.2)).length := by
            simp [hfslen]
            omega
          have h3 : i < fs.membership_values.length := by
            simpa using h2
          rw [List.getD_eq_getElem _ _ (by simp [List.length_zipWith]; omega),
            List.getElem_zipWith, List.getD_eq_getElem _ _ h1,
            List.getElem_map, List.getD_eq_getElem _ _ h3]
        rw [hzip]
        have hfilter : ((q :: t).filter (fun q => decide (0 < q.2))) =
            q :: (t.filter (fun q => decide (0 < q.2))) := by
          rw [List.filter_cons, if_pos (by simpa using hq)]
        rw [hfilter, List.map_cons, List.foldl_cons, hfs]
        rfl
    · have hstep : truncStep ov mf q = .ok mf := by
        rw [truncStep, if_neg hq]
      rcases ih mf hlen (fun q2 hq2 => hwf q2 (List.mem_cons_of_mem q hq2)) with
        ⟨mf2, hfold, hlen3, hpt⟩
      refine ⟨mf2, ?_, hlen3, ?_⟩
      · rw [List.foldlM_cons, hstep, except_bind_ok]
        exact hfold
      · intro i hi
        rw [hpt i hi]
        have hfilter : ((q :: t).filter (fun q => decide (0 < q.2))) =
            t.filter (fun q => decide (0 < q.2)) := by
          rw [List.filter_cons, if_neg (by simpa using hq)]
        rw [hfilter]

theorem defuzz_eq_spec (ov : FuzzyVariable) (var_sets : List (String × ℚ))
    (hwf : ∀ q ∈ var_sets, ∃ fs, alGet ov.sets q.1 = some fs ∧
      fs.membership_values.length = ov.univ.length) :
    ov.defuzz var_sets = .ok (specDefuzz ov var_sets) := by
  rcases trunc_fold_spec ov var_sets (ov.univ.map (fun _ => 0)) (by simp) hwf with
    ⟨mf2, hfold, hlen, hpt⟩
  have hcurve : mf2 = specTruncCurve ov var_sets := by
    apply List.ext_getElem
    · simp [specTruncCurve, hlen]
    · intro i h1 h2
      have hi : i < ov.univ.length := by omega
      have hzero : ((ov.univ.map (fun _ => (0 : ℚ))).getD i 0) = 0 := by
        rw [List.getD_eq_getElem _ _ (by simpa using hi), List.getElem_map]
      have h3 := hpt i hi
      rw [hzero, foldl_max_eq_foldr] at h3
      have hrhs : (specTruncCurve ov var_sets).getD i 0 =
          ((var_sets.filter (fun q => decide (0 < q.2))).map (fun q =>
            min (((alGet ov.sets q.1).getD ⟨"", [], []⟩).membership_values.getD i 0)
              q.2)).foldr max 0 := by
        rw [specTruncCurve]
        rw [List.getD_eq_getElem _ _ (by simpa using hi), List.getElem_map,
          List.getElem_range]
      rw [← List.getD_eq_getElem mf2 0 h1,
        ← List.getD_eq_getElem (specTruncCurve ov var_sets) 0 h2, h3, hrhs]
  rw [FuzzyVariable.defuzz, hfold, except_bind_ok, hcurve, specDefuzz]
  by_cases hsum : 0 < (specTruncCurve ov var_sets).sum
  · rw [if_pos hsum, if_pos hsum]
    rfl
  · rw [if_neg hsum, if_neg hsum]
    rfl

theorem mapM_defuzz_spec (s : MamdaniFuzzySystem) :
    ∀ (agg : List (String × List (String × ℚ))),
    (∀ p ∈ agg, ∃ v, alGet s.output_variables p.1 = some v ∧
      ∀ q ∈ p.2, ∃ fs, alGet v.sets q.1 = some fs ∧
        fs.membership_values.length = v.univ.length) →
    List.mapM (fun (p : String × List (String × ℚ)) =>
        match alGet s.output_variables p.1 with
        | some ov => Except.bind (ov.defuzz p.2) (fun c => Except.ok (p.1, c))
        | none => (Except.error "KeyError" : Except String (String × ℚ))) agg =
      .ok (agg.map (fun p =>
        (p.1, specDefuzz ((alGet s.output_variables p.1).getD ⟨"", [], []⟩) p.2))) := by
  intro agg
  induction agg with
  | nil =>
    intro _
    rfl
  | cons p t ih =>
    intro hwf
    rcases hwf p (by simp) with ⟨v, hv, hsets⟩
    rw [List.mapM_cons]
    have hd : (match alGet s.output_variables p.1 with
        | some ov => Except.bind (ov.defuzz p.2) (fun c => Except.ok (p.1, c))
        | none => (Except.error "KeyError" : Except String (String × ℚ))) =
        Except.bind (v.defuzz p.2) (fun c => Except.ok (p.1, c)) := by
      rw [hv]
    rw [hd, defuzz_eq_spec v p.2 hsets, except_bind_ok2]
    have hih := ih (fun q hq => hwf q (List.mem_cons_of_mem p hq))
    rw [hih]
    rw [List.map_cons, hv]
    rfl

/-- C2: for every output variable, `evaluate` defuzzifies exactly as the
specification prescribes — each output set with positive aggregated
strength contributes the truncated curve `min(values[i], strength)`, the
truncated curves are merged by pointwise max, and the crisp result is
`sum(universe[i] * aggregated[i]) / sum(aggregated[i])` under the
positivity guard, with the universe midpoint `(min+max)/2` as the fallback
when the aggregated curve sums to zero — so the division is only ever
performed when the denominator is positive. -/
theorem spec_C2_defuzzification (s : MamdaniFuzzySystem) (inputs : List (String × ℚ))
    (agg : List (String × List (String × ℚ)))
    (hagg : s.aggregate inputs = .ok agg)
    (hwf : ∀ p ∈ agg, ∃ v, alGet s.output_variables p.1 = some v ∧
      ∀ q ∈ p.2, ∃ fs, alGet v.sets q.1 = some fs ∧
        fs.membership_values.length = v.univ.length) :
    s.evaluate inputs = .ok (agg.map (fun p =>
      (p.1, specDefuzz ((alGet s.output_variables p.1).getD ⟨"", [], []⟩) p.2))) ∧
    ∀ (v : FuzzyVariable) (strengths : List (String × ℚ)),
      (0 < (specTruncCurve v strengths).sum ∧
        specDefuzz v strengths =
          (List.zipWith (fun a b => a * b) v.univ (specTruncCurve v strengths)).sum /
            (specTruncCurve v strengths).sum) ∨
      ((specTruncCurve v strengths).sum ≤ 0 ∧
        specDefuzz v strengths = (v.univ.headD 0 + listLast v.univ) / 2) := by
  constructor
  · rw [MamdaniFuzzySystem.evaluate, hagg, except_bind_ok]
    exact mapM_defuzz_spec s agg hwf
  · intro v strengths
    by_cases hsum : 0 < (specTruncCurve v strengths).sum
    · exact Or.inl ⟨hsum, by rw [specDefuzz, if_pos hsum]⟩
    · exact Or.inr ⟨le_of_not_lt hsum, by rw [specDefuzz, if_neg hsum]⟩

theorem spec_C2_witness :
    scoreSystem.evaluate [] = .ok ([("score", [("ok", (0 : ℚ))])].map (fun p =>
      (p.1, specDefuzz ((alGet scoreSystem.output_variables p.1).getD ⟨"", [], []⟩)
        p.2))) := by
  refine (spec_C2_defuzzification scoreSystem [] [("score", [("ok", 0)])] rfl ?_).1
  intro p hp
  rcases List.mem_singleton.mp hp with rfl
  refine ⟨scoreVar, rfl, ?_⟩
  intro q hq
  rcases List.mem_singleton.mp hq with rfl
  refine ⟨_, rfl, ?_⟩
  simp [scoreVar, FuzzySet.triangular]

/-! ### Output range -/

theorem alGet_some_mem {α : Type} (l : List (String × α)) (k : String) (v : α)
    (h : alGet l k = some v) : (k, v) ∈ l := by
  induction l with
  | nil => cases h
  | cons p t ih =>
    rcases p with ⟨a, w⟩
    rw [alGet_cons] at h
    by_cases ha : a = k
    · rw [if_pos ha] at h
      cases h
      rw [← ha]
      exact List.mem_cons_self _ _
    · rw [if_neg ha] at h
      exact List.mem_cons_of_mem _ (ih h)

theorem sorted_bounds (u : List ℚ) (hs : List.Sorted (· < ·) u) :
    ∀ z ∈ u, u.headD 0 ≤ z ∧ z ≤ listLast u := by
  induction u with
  | nil => intro z hz; cases hz
  | cons a t ih =>
    intro z hz
    have hlast : a ≤ listLast (a :: t) := by
      rcases t with _ | ⟨b, r⟩
      · rw [listLast_single]
      · rw [listLast_cons_cons]
        exact le_of_lt (sorted_head_lt_tail hs _ (listLast_mem (b :: r) (by simp)))
    rcases List.mem_cons.mp hz with rfl | hz2
    · exact ⟨le_refl _, hlast⟩
    · have haz : a < z := sorted_head_lt_tail hs z hz2
      rcases t with _ | ⟨b, r⟩
      · cases hz2
      · have := ih (List.sorted_cons.mp hs).2 z hz2
        rw [listLast_cons_cons]
        exact ⟨le_of_lt (lt_of_le_of_lt (by rfl : (a :: b :: r).headD 0 ≤ a) haz), this.2⟩

theorem sum_zip_bounds (lo hi : ℚ) :
    ∀ (u w : List ℚ), u.length = w.length → (∀ y ∈ w, 0 ≤ y) →
    (∀ z ∈ u, lo ≤ z ∧ z ≤ hi) →
    lo * w.sum ≤ (List.zipWith (fun a b => a * b) u w).sum ∧
      (List.zipWith (fun a b => a * b) u w).sum ≤ hi * w.sum := by
  intro u
  induction u with
  | nil =>
    intro w hlen _ _
    have : w = [] := by
      rcases w with _ | ⟨y, w2⟩
      · rfl
      · cases hlen
    subst this
    simp
  | cons a u2 ih =>
    intro w hlen hw hu
    rcases w with _ | ⟨y, w2⟩
    · cases hlen
    · have hlen2 : u2.length = w2.length := by simpa using hlen
      have hy : 0 ≤ y := hw y (by simp)
      have ha := hu a (by simp)
      have hrest := ih w2 hlen2 (fun y2 hy2 => hw y2 (List.mem_cons_of_mem y hy2))
        (fun z hz => hu z (List.mem_cons_of_mem a hz))
      rw [List.zipWith_cons_cons, List.sum_cons, List.sum_cons]
      constructor
      · have h1 : lo * y ≤ a * y := mul_le_mul_of_nonneg_right ha.1 hy
        nlinarith [hrest.1]
      · have h1 : a * y ≤ hi * y := mul_le_mul_of_nonneg_right ha.2 hy
        nlinarith [hrest.2]

theorem trunc_fold_nonneg (ov : FuzzyVariable)
    (hsets : ∀ q ∈ ov.sets, (∀ y ∈ q.2.membership_values, 0 ≤ y) ∧
      q.2.membership_values.length = ov.univ.length) :
    ∀ (var_sets : List (String × ℚ)) (mf mf2 : List ℚ),
    (∀ y ∈ mf, 0 ≤ y) → mf.length = ov.univ.length →
    List.foldlM (truncStep ov) mf var_sets = .ok mf2 →
    (∀ y ∈ mf2, 0 ≤ y) ∧ mf2.length = ov.univ.length := by
  intro var_sets
  induction var_sets with
  | nil =>
    intro mf mf2 hnn hlen h
    cases h
    exact ⟨hnn, hlen⟩
  | cons q t ih =>
    intro mf mf2 hnn hlen h
    rw [List.foldlM_cons] at h
    by_cases hq : 0 < q.2
    · rcases hget : alGet ov.sets q.1 with _ | fs
      · rw [truncStep, if_pos hq, hget] at h
        cases h
      · rw [truncStep, if_pos hq, hget, except_bind_ok] at h
        have hfs := hsets (q.1, fs) (alGet_some_mem ov.sets q.1 fs hget)
        have hnn2 : ∀ y ∈ List.zipWith max mf
            (fs.membership_values.map (fun y => min y q.2)), 0 ≤ y := by
          intro y hy
          rcases List.mem_iff_getElem.mp hy with ⟨i, hilt, hieq⟩
          rw [List.getElem_zipWith] at hieq
          have h1 : i < mf.length := by
            rw [List.length_zipWith] at hilt
            omega
          have h2 : i < (fs.membership_values.map (fun y => min y q.2)).length := by
            rw [List.length_zipWith] at hilt
            omega
          have h3 : i < fs.membership_values.length := by simpa using h2
          rw [← hieq]
          have hmf : 0 ≤ mf[i] := hnn mf[i] (List.getElem_mem h1)
          exact le_max_of_le_left hmf
        have hlen2 : (List.zipWith max mf
            (fs.membership_values.map (fun y => min y q.2))).length = ov.univ.length := by
          simp [List.length_zipWith, hlen, hfs.2]
        exact ih _ mf2 hnn2 hlen2 h
    · rw [truncStep, if_neg hq, except_bind_ok] at h
      exact ih mf mf2 hnn hlen h

theorem defuzz_range (ov : FuzzyVariable) (var_sets : List (String × ℚ)) (c : ℚ)
    (hs : List.Sorted (· < ·) ov.univ) (hne : ov.univ ≠ [])
    (hsets : ∀ q ∈ ov.sets, (∀ y ∈ q.2.membership_values, 0 ≤ y) ∧
      q.2.membership_values.length = ov.univ.length)
    (hok : ov.defuzz var_sets = .ok c) :
    ov.univ.headD 0 ≤ c ∧ c ≤ listLast ov.univ := by
  have hlohi : ov.univ.headD 0 ≤ listLast ov.univ :=
    (sorted_bounds ov.univ hs (listLast ov.univ) (listLast_mem ov.univ hne)).1
  rw [FuzzyVariable.defuzz] at hok
  rcases hfold : List.foldlM (truncStep ov) (ov.univ.map (fun _ => 0)) var_sets with
    er | mf2
  · rw [hfold] at hok
    cases hok
  · rw [hfold, except_bind_ok] at hok
    have hmf := trunc_fold_nonneg ov hsets var_sets (ov.univ.map (fun _ => 0)) mf2
      (by intro y hy; rcases List.mem_map.mp hy with ⟨z, _, hz⟩; rw [← hz])
      (by simp) hfold
    by_cases hsum : 0 < mf2.sum
    · rw [if_pos hsum] at hok
      cases hok
      have := sum_zip_bounds (ov.univ.headD 0) (listLast ov.univ) ov.univ mf2
        hmf.2.symm hmf.1 (sorted_bounds ov.univ hs)
      constructor
      · rw [le_div_iff₀ hsum]
        linarith [this.1]
      · rw [div_le_iff₀ hsum]
        linarith [this.2]
    · rw [if_neg hsum] at hok
      cases hok
      constructor
      · linarith
      · linarith

theorem mapM_ok_mem {α β : Type} (F : α → Except String β) :
    ∀ (l : List α) (out : List β), l.mapM F = .ok out →
      ∀ b ∈ out, ∃ a ∈ l, F a = .ok b := by
  intro l
  induction l with
  | nil =>
    intro out h b hb
    cases h
    cases hb
  | cons a t ih =>
    intro out h b hb
    rw [List.mapM_cons] at h
    rcases hF : F a with e | x
    · rw [hF] at h
      cases h
    · rw [hF, except_bind_ok] at h
      rcases ht : t.mapM F with e2 | xs
      · rw [ht] at h
        cases h
      · rw [ht, except_bind_ok] at h
        cases h
        rcases List.mem_cons.mp hb with rfl | hb2
        · exact ⟨a, by simp, hF⟩
        · rcases ih xs ht b hb2 with ⟨a2, ha2, hFa2⟩
          exact ⟨a2, List.mem_cons_of_mem a ha2, hFa2⟩

/-- C10: under the invariant established by the shape constructors (all
stored membership degrees non-negative, one degree per universe sample)
and sorted nonempty output universes, every crisp value produced by
`evaluate` for an output variable lies within the declared
range: the centroid is a weighted average of universe samples and the
no-fire fallback is the universe midpoint. -/
theorem spec_C10_output_in_range (s : MamdaniFuzzySystem) (inputs : List (String × ℚ))
    (outs : List (String × ℚ))
    (hwfv : ∀ pv ∈ s.output_variables, List.Sorted (· < ·) pv.2.univ ∧ pv.2.univ ≠ [] ∧
      ∀ q ∈ pv.2.sets, (∀ y ∈ q.2.membership_values, 0 ≤ y) ∧
        q.2.membership_values.length = pv.2.univ.length)
    (hev : s.evaluate inputs = .ok outs) :
    ∀ p ∈ outs, ∃ v, alGet s.output_variables p.1 = some v ∧
      v.univ.headD 0 ≤ p.2 ∧ p.2 ≤ listLast v.univ := by
  intro p hp
  rw [MamdaniFuzzySystem.evaluate] at hev
  rcases hagg : s.aggregate inputs with er | agg
  · rw [hagg] at hev
    cases hev
  · rw [hagg, except_bind_ok] at hev
    rcases mapM_ok_mem _ agg outs hev p hp with ⟨q, _, hF⟩
    rcases hget : alGet s.output_variables q.1 with _ | v
    · rw [hget] at hF
      cases hF
    · rw [hget] at hF
      have hF2 : Except.bind (v.defuzz q.2) (fun c => Except.ok (q.1, c)) = .ok p := hF
      rcases hdef : v.defuzz q.2 with e2 | c
      · rw [hdef] at hF2
        cases hF2
      · rw [hdef, except_bind_ok2] at hF2
        cases hF2
        have hv := hwfv (q.1, v) (alGet_some_mem s.output_variables q.1 v hget)
        exact ⟨v, hget, defuzz_range v q.2 c hv.1 hv.2.1 hv.2.2 hdef⟩

theorem scoreSystem_eval_nil : scoreSystem.evaluate [] = .ok [("score", 5)] := by
  refine evaluate_singleton_output _ "score" scoreVar [] [("ok", 0)] 5 rfl rfl ?_
  rw [defuzz_no_fire scoreVar [("ok", 0)] (by simp), scoreVar_midpoint]

theorem spec_C10_witness :
    ∃ v, alGet scoreSystem.output_variables "score" = some v ∧
      v.univ.headD 0 ≤ (5 : ℚ) ∧ (5 : ℚ) ≤ listLast v.univ := by
  have hwfv : ∀ pv ∈ scoreSystem.output_variables,
      List.Sorted (· < ·) pv.2.univ ∧ pv.2.univ ≠ [] ∧
      ∀ q ∈ pv.2.sets, (∀ y ∈ q.2.membership_values, 0 ≤ y) ∧
        q.2.membership_values.length = pv.2.univ.length := by
    intro pv hpv
    rcases List.mem_singleton.mp hpv with rfl
    refine ⟨?_, ?_, ?_⟩
    · show List.Sorted (· < ·) (linspace 0 10 3)
      rw [linspace_0_10_3]
      norm_num [List.sorted_cons]
    · show linspace 0 10 3 ≠ []
      rw [linspace_0_10_3]
      simp
    · intro q hq
      rcases List.mem_singleton.mp hq with rfl
      constructor
      · intro y hy
        show (0 : ℚ) ≤ y
        have : y ∈ (linspace 0 10 3).map (triangularVal 0 5 10) := hy
        rcases List.mem_map.mp this with ⟨z, _, hz⟩
        rw [← hz]
        exact triangularVal_nonneg 0 5 10 z
      · simp [FuzzySet.triangular, scoreVar]
  exact spec_C10_output_in_range scoreSystem [] [("score", 5)] hwfv
    scoreSystem_eval_nil ("score", 5) (by simp)

/-! ### The event system at the corner inputs -/

/-- A triangular set of the event system (each variable spans [0, 100] with
the default 100 samples). -/
def evTriSet (nm : String) (a b c : ℚ) : FuzzySet :=
  FuzzySet.triangular
    ⟨nm, linspace 0 100 100, (linspace 0 100 100).map (fun _ => 0)⟩ a b c

/-- An event-system variable over [0, 100]. -/
def evVar (nm : String) (sets : List (String × FuzzySet)) : FuzzyVariable :=
  ⟨nm, linspace 0 100 100, sets⟩

/-- The four input variables and the output variable of the event system,
written out. -/
def imVar : FuzzyVariable :=
  evVar "interest_match"
    [("low", evTriSet "low" 0 0 40), ("medium", evTriSet "medium" 20 50 80),
     ("high", evTriSet "high" 60 100 100)]

/-- Location variable of the event system. -/
def lpVar : FuzzyVariable :=
  evVar "location_proximity"
    [("far", evTriSet "far" 0 0 40), ("moderate", evTriSet "moderate" 20 50 80),
     ("near", evTriSet "near" 60 100 100)]

/-- Time variable of the event system. -/
def toVar : FuzzyVariable :=
  evVar "time_overlap"
    [("no_overlap", evTriSet "no_overlap" 0 0 30), ("partial", evTriSet "partial" 20 50 80),
     ("complete", evTriSet "complete" 70 100 100)]

/-- Budget variable of the event system. -/
def baVar : FuzzyVariable :=
  evVar "budget_alignment"
    [("over_budget", evTriSet "over_budget" 0 0 30), ("at_limit", evTriSet "at_limit" 20 50 80),
     ("within_budget", evTriSet "within_budget" 70 100 100)]

/-- Output variable of the event system. -/
def recVar : FuzzyVariable :=
  evVar "recommendation"
    [("low", evTriSet "low" 0 15 30), ("medium", evTriSet "medium" 20 45 70),
     ("high", evTriSet "high" 60 80 100)]

/-- The value produced by the `customEventSystem` builder, written out. -/
def customEventSystemValue : MamdaniFuzzySystem :=
  ⟨[("interest_match", imVar), ("location_proximity", lpVar),
    ("time_overlap", toVar), ("budget_alignment", baVar)],
   [("recommendation", recVar)],
   [⟨[("interest_match", "high"), ("location_proximity", "near"),
      ("time_overlap", "complete"), ("budget_alignment", "within_budget"), ("op", "AND")],
     [("recommendation", "high")], 1⟩,
    ⟨[("interest_match", "high"), ("location_proximity", "near"),
      ("time_overlap", "complete"), ("budget_alignment", "at_limit"), ("op", "AND")],
     [("recommendation", "high")], 1⟩,
    ⟨[("interest_match", "high"), ("location_proximity", "near"),
      ("time_overlap", "partial"), ("budget_alignment", "within_budget"), ("op", "AND")],
     [("recommendation", "high")], 1⟩,
    ⟨[("interest_match", "medium"), ("location_proximity", "near"),
      ("time_overlap", "complete"), ("budget_alignment", "within_budget"), ("op", "AND")],
     [("recommendation", "high")], 1⟩,
    ⟨[("interest_match", "high"), ("location_proximity", "moderate"),
      ("time_overlap", "partial"), ("budget_alignment", "within_budget"), ("op", "AND")],
     [("recommendation", "medium")], 1⟩,
    ⟨[("interest_match", "medium"), ("location_proximity", "moderate"),
      ("time_overlap", "partial"), ("budget_alignment", "at_limit"), ("op", "AND")],
     [("recommendation", "medium")], 1⟩,
    ⟨[("interest_match", "low"), ("op", "OR")], [("recommendation", "low")], 1⟩,
    ⟨[("time_overlap", "no_overlap"), ("op", "OR")], [("recommendation", "low")], 1⟩,
    ⟨[("budget_alignment", "over_budget"), ("op", "OR")], [("recommendation", "low")], 1⟩,
    ⟨[("interest_match", "low"), ("location_proximity", "far"), ("op", "AND")],
     [("recommendation", "low")], 1⟩,
    ⟨[("interest_match", "medium"), ("location_proximity", "moderate"),
      ("time_overlap", "partial"), ("budget_alignment", "within_budget"), ("op", "AND")],
     [("recommendation", "medium")], 1⟩,
    ⟨[("interest_match", "high"), ("location_proximity", "far"),
      ("time_overlap", "partial"), ("budget_alignment", "within_budget"), ("op", "AND")],
     [("recommendation", "medium")], 1⟩]⟩

theorem customEventSystem_eq : customEventSystem = .ok customEventSystemValue := rfl

theorem headD_map (g : ℚ → ℚ) (a : ℚ) (t : List ℚ) :
    ((a :: t).map g).headD 0 = g a := rfl

theorem listLast_map (g : ℚ → ℚ) : ∀ (u : List ℚ), u ≠ [] →
    listLast (u.map g) = g (listLast u) := by
  intro u
  induction u with
  | nil => intro h; exact absurd rfl h
  | cons a t ih =>
    intro _
    rcases t with _ | ⟨b, r⟩
    · rfl
    · rw [show ((a :: b :: r).map g) = g a :: g b :: r.map g from rfl,
        listLast_cons_cons, listLast_cons_cons]
      exact ih (by simp)

theorem lin100_ne : linspace 0 100 100 ≠ [] := by
  simp [linspace]

theorem lin100_head : (linspace 0 100 100).headD 0 = 0 := by
  rw [linspace, show (100 : ℕ) = 99 + 1 from rfl, List.range_succ_eq_map]
  norm_num

theorem listLast_append_single (a : ℚ) : ∀ (l : List ℚ), listLast (l ++ [a]) = a := by
  intro l
  induction l with
  | nil => rfl
  | cons b t ih =>
    rcases ht : t ++ [a] with _ | ⟨c, r⟩
    · rcases t with _ | ⟨d, t2⟩
      · cases ht
      · cases ht
    · rw [List.cons_append, ht, listLast_cons_cons, ← ht, ih]

theorem lin100_last : listLast (linspace 0 100 100) = 100 := by
  rw [linspace, show (100 : ℕ) = 99 + 1 from rfl, List.range_succ, List.map_append]
  simp only [List.map_cons, List.map_nil]
  rw [listLast_append_single]
  norm_num

theorem membership_map_last_val (nm : String) (g : ℚ → ℚ) (u : List ℚ) (x : ℚ)
    (hhx : ¬ x ≤ u.headD 0) (hlx : listLast u ≤ x) (hne : u ≠ []) :
    FuzzySet.membership ⟨nm, u, u.map g⟩ x = g (listLast u) := by
  rw [FuzzySet.membership]
  dsimp only
  rw [if_neg hhx, if_pos hlx, listLast_map g u hne]

theorem membership_map_head_val (nm : String) (g : ℚ → ℚ) (u : List ℚ) (x : ℚ)
    (hx : x ≤ u.headD 0) (hne : u ≠ []) :
    FuzzySet.membership ⟨nm, u, u.map g⟩ x = g (u.headD 0) := by
  rw [FuzzySet.membership]
  dsimp only
  rw [if_pos hx]
  rcases u with _ | ⟨a, t⟩
  · exact absurd rfl hne
  · rfl

theorem evTriSet_membership_100 (nm : String) (a b c : ℚ) (hc : c ≤ 100) :
    (evTriSet nm a b c).membership 100 = 0 := by
  rw [show evTriSet nm a b c =
      ⟨nm, linspace 0 100 100, (linspace 0 100 100).map (triangularVal a b c)⟩ from rfl]
  rw [membership_map_last_val nm (triangularVal a b c) (linspace 0 100 100) 100
    (by rw [lin100_head]; norm_num) (by rw [lin100_last]) lin100_ne]
  rw [lin100_last]
  exact triangularVal_zero_right a b c 100 hc

theorem evTriSet_membership_0 (nm : String) (a b c : ℚ) (ha : 0 ≤ a) :
    (evTriSet nm a b c).membership 0 = 0 := by
  rw [show evTriSet nm a b c =
      ⟨nm, linspace 0 100 100, (linspace 0 100 100).map (triangularVal a b c)⟩ from rfl]
  rw [membership_map_head_val nm (triangularVal a b c) (linspace 0 100 100) 0
    (by rw [lin100_head]) lin100_ne]
  rw [lin100_head]
  exact triangularVal_zero_left a b c 0 ha

/-- The fuzzified inputs at either corner: every degree is zero. -/
def fzAllZero : List (String × List (String × ℚ)) :=
  [("interest_match", [("low", 0), ("medium", 0), ("high", 0)]),
   ("location_proximity", [("far", 0), ("moderate", 0), ("near", 0)]),
   ("time_overlap", [("no_overlap", 0), ("partial", 0), ("complete", 0)]),
   ("budget_alignment", [("over_budget", 0), ("at_limit", 0), ("within_budget", 0)])]

theorem imVar_fuzzify_100 : imVar.fuzzify 100 = [("low", 0), ("medium", 0), ("high", 0)] := by
  rw [show imVar.fuzzify 100 =
    [("low", (evTriSet "low" 0 0 40).membership 100),
     ("medium", (evTriSet "medium" 20 50 80).membership 100),
     ("high", (evTriSet "high" 60 100 100).membership 100)] from rfl]
  rw [evTriSet_membership_100 "low" 0 0 40 (by norm_num),
    evTriSet_membership_100 "medium" 20 50 80 (by norm_num),
    evTriSet_membership_100 "high" 60 100 100 (by norm_num)]

theorem lpVar_fuzzify_100 : lpVar.fuzzify 100 = [("far", 0), ("moderate", 0), ("near", 0)] := by
  rw [show lpVar.fuzzify 100 =
    [("far", (evTriSet "far" 0 0 40).membership 100),
     ("moderate", (evTriSet "moderate" 20 50 80).membership 100),
     ("near", (evTriSet "near" 60 100 100).membership 100)] from rfl]
  rw [evTriSet_membership_100 "far" 0 0 40 (by norm_num),
    evTriSet_membership_100 "moderate" 20 50 80 (by norm_num),
    evTriSet_membership_100 "near" 60 100 100 (by norm_num)]

theorem toVar_fuzzify_100 :
    toVar.fuzzify 100 = [("no_overlap", 0), ("partial", 0), ("complete", 0)] := by
  rw [show toVar.fuzzify 100 =
    [("no_overlap", (evTriSet "no_overlap" 0 0 30).membership 100),
     ("partial", (evTriSet "partial" 20 50 80).membership 100),
     ("complete", (evTriSet "complete" 70 100 100).membership 100)] from rfl]
  rw [evTriSet_membership_100 "no_overlap" 0 0 30 (by norm_num),
    evTriSet_membership_100 "partial" 20 50 80 (by norm_num),
    evTriSet_membership_100 "complete" 70 100 100 (by norm_num)]

theorem baVar_fuzzify_100 :
    baVar.fuzzify 100 = [("over_budget", 0), ("at_limit", 0), ("within_budget", 0)] := by
  rw [show baVar.fuzzify 100 =
    [("over_budget", (evTriSet "over_budget" 0 0 30).membership 100),
     ("at_limit", (evTriSet "at_limit" 20 50 80).membership 100),
     ("within_budget", (evTriSet "within_budget" 70 100 100).membership 100)] from rfl]
  rw [evTriSet_membership_100 "over_budget" 0 0 30 (by norm_num),
    evTriSet_membership_100 "at_limit" 20 50 80 (by norm_num),
    evTriSet_membership_100 "within_budget" 70 100 100 (by norm_num)]

theorem imVar_fuzzify_0 : imVar.fuzzify 0 = [("low", 0), ("medium", 0), ("high", 0)] := by
  rw [show imVar.fuzzify 0 =
    [("low", (evTriSet "low" 0 0 40).membership 0),
     ("medium", (evTriSet "medium" 20 50 80).membership 0),
     ("high", (evTriSet "high" 60 100 100).membership 0)] from rfl]
  rw [evTriSet_membership_0 "low" 0 0 40 (by norm_num),
    evTriSet_membership_0 "medium" 20 50 80 (by norm_num),
    evTriSet_membership_0 "high" 60 100 100 (by norm_num)]

theorem lpVar_fuzzify_0 : lpVar.fuzzify 0 = [("far", 0), ("moderate", 0), ("near", 0)] := by
  rw [show lpVar.fuzzify 0 =
    [("far", (evTriSet "far" 0 0 40).membership 0),
     ("moderate", (evTriSet "moderate" 20 50 80).membership 0),
     ("near", (evTriSet "near" 60 100 100).membership 0)] from rfl]
  rw [evTriSet_membership_0 "far" 0 0 40 (by norm_num),
    evTriSet_membership_0 "moderate" 20 50 80 (by norm_num),
    evTriSet_membership_0 "near" 60 100 100 (by norm_num)]

theorem toVar_fuzzify_0 :
    toVar.fuzzify 0 = [("no_overlap", 0), ("partial", 0), ("complete", 0)] := by
  rw [show toVar.fuzzify 0 =
    [("no_overlap", (evTriSet "no_overlap" 0 0 30).membership 0),
     ("partial", (evTriSet "partial" 20 50 80).membership 0),
     ("complete", (evTriSet "complete" 70 100 100).membership 0)] from rfl]
  rw [evTriSet_membership_0 "no_overlap" 0 0 30 (by norm_num),
    evTriSet_membership_0 "partial" 20 50 80 (by norm_num),
    evTriSet_membership_0 "complete" 70 100 100 (by norm_num)]

theorem baVar_fuzzify_0 :
    baVar.fuzzify 0 = [("over_budget", 0), ("at_limit", 0), ("within_budget", 0)] := by
  rw [show baVar.fuzzify 0 =
    [("over_budget", (evTriSet "over_budget" 0 0 30).membership 0),
     ("at_limit", (evTriSet "at_limit" 20 50 80).membership 0),
     ("within_budget", (evTriSet "within_budget" 70 100 100).membership 0)] from rfl]
  rw [evTriSet_membership_0 "over_budget" 0 0 30 (by norm_num),
    evTriSet_membership_0 "at_limit" 20 50 80 (by norm_num),
    evTriSet_membership_0 "within_budget" 70 100 100 (by norm_num)]

theorem fuzzifyInputs_corner_100 :
    customEventSystemValue.fuzzifyInputs
      [("interest_match", 100), ("location_proximity", 100),
       ("time_overlap", 100), ("budget_alignment", 100)] = fzAllZero := by
  rw [MamdaniFuzzySystem.fuzzifyInputs]
  rw [List.foldl_cons, List.foldl_cons, List.foldl_cons, List.foldl_cons, List.foldl_nil]
  dsimp only
  rw [show alGet customEventSystemValue.input_variables "interest_match" = some imVar
      from rfl,
    show alGet customEventSystemValue.input_variables "location_proximity" = some lpVar
      from rfl,
    show alGet customEventSystemValue.input_variables "time_overlap" = some toVar from rfl,
    show alGet customEventSystemValue.input_variables "budget_alignment" = some baVar
      from rfl]
  dsimp only
  rw [imVar_fuzzify_100, lpVar_fuzzify_100, toVar_fuzzify_100, baVar_fuzzify_100]
  rfl

theorem fuzzifyInputs_corner_0 :
    customEventSystemValue.fuzzifyInputs
      [("interest_match", 0), ("location_proximity", 0),
       ("time_overlap", 0), ("budget_alignment", 0)] = fzAllZero := by
  rw [MamdaniFuzzySystem.fuzzifyInputs]
  rw [List.foldl_cons, List.foldl_cons, List.foldl_cons, List.foldl_cons, List.foldl_nil]
  dsimp only
  rw [show alGet customEventSystemValue.input_variables "interest_match" = some imVar
      from rfl,
    show alGet customEventSystemValue.input_variables "location_proximity" = some lpVar
      from rfl,
    show alGet customEventSystemValue.input_variables "time_overlap" = some toVar from rfl,
    show alGet customEventSystemValue.input_variables "budget_alignment" = some baVar
      from rfl]
  dsimp only
  rw [imVar_fuzzify_0, lpVar_fuzzify_0, toVar_fuzzify_0, baVar_fuzzify_0]
  rfl

theorem termDegree_all_zero (f : List (String × List (String × ℚ)))
    (hall : ∀ p ∈ f, ∀ q ∈ p.2, q.2 = 0) : ∀ vr st, termDegree f vr st = 0 := by
  intro vr st
  rw [termDegree]
  rcases hv : alGet f vr with _ | d
  · rfl
  · have hd : ∀ q ∈ d, q.2 = 0 := hall (vr, d) (alGet_some_mem f vr d hv)
    show (alGet d st).getD 0 = 0
    rcases hq : alGet d st with _ | v
    · rfl
    · show v = 0
      exact hd (st, v) (alGet_some_mem d st v hq)

theorem fzAllZero_all_zero : ∀ p ∈ fzAllZero, ∀ q ∈ p.2, q.2 = 0 := by
  intro p hp q hq
  fin_cases hp <;> fin_cases hq <;> rfl

theorem foldl_min_zero : ∀ (t : List ℚ) (a : ℚ), a = 0 → (∀ d ∈ t, d = 0) →
    t.foldl min a = 0 := by
  intro t
  induction t with
  | nil =>
    intro a ha _
    exact ha
  | cons x t2 ih =>
    intro a ha hall
    rw [List.foldl_cons]
    refine ih (min a x) ?_ (fun d hd => hall d (List.mem_cons_of_mem x hd))
    rw [ha, hall x (by simp), min_self]

theorem foldl_max_zero : ∀ (t : List ℚ) (a : ℚ), a = 0 → (∀ d ∈ t, d = 0) →
    t.foldl max a = 0 := by
  intro t
  induction t with
  | nil =>
    intro a ha _
    exact ha
  | cons x t2 ih =>
    intro a ha hall
    rw [List.foldl_cons]
    refine ih (max a x) ?_ (fun d hd => hall d (List.mem_cons_of_mem x hd))
    rw [ha, hall x (by simp), max_self]

theorem listMin_all_zero (l : List ℚ) (h : ∀ d ∈ l, d = 0) : listMin l = 0 := by
  rcases l with _ | ⟨a, t⟩
  · rfl
  · exact foldl_min_zero t a (h a (by simp)) (fun d hd => h d (List.mem_cons_of_mem a hd))

theorem listMax_all_zero (l : List ℚ) (h : ∀ d ∈ l, d = 0) : listMax l = 0 := by
  rcases l with _ | ⟨a, t⟩
  · rfl
  · exact foldl_max_zero t a (h a (by simp)) (fun d hd => h d (List.mem_cons_of_mem a hd))

theorem rule_evaluate_zero (r : FuzzyRule) (f : List (String × List (String × ℚ)))
    (htd : ∀ vr st, termDegree f vr st = 0)
    (hop : pyUpper ((alGet r.antecedent "op").getD "AND") = "AND" ∨
      pyUpper ((alGet r.antecedent "op").getD "AND") = "OR") :
    r.evaluate f = .ok (r.consequent.map (fun p => (p.1, [(p.2, (0 : ℚ))]))) := by
  have hstr : ∀ d ∈ collectStrengths r.antecedent f, d = 0 := by
    intro d hd
    rcases List.mem_map.mp hd with ⟨p, _, hp⟩
    rw [← hp]
    exact htd p.1 p.2
  have hcomb : combineOp (pyUpper ((alGet r.antecedent "op").getD "AND"))
      (collectStrengths r.antecedent f) = .ok 0 := by
    rcases hop with h | h
    · rw [h, combineOp, if_pos rfl]
      by_cases he : (collectStrengths r.antecedent f).isEmpty
      · rw [if_pos he]
      · rw [if_neg he, listMin_all_zero _ hstr]
    · rw [h, combineOp, if_neg (by decide), if_pos rfl]
      by_cases he : (collectStrengths r.antecedent f).isEmpty
      · rw [if_pos he]
      · rw [if_neg he, listMax_all_zero _ hstr]
  rw [FuzzyRule.evaluate, hcomb]
  have hm : Except.map (fun fs => r.consequent.map (fun p => (p.1, [(p.2, fs * r.weight)])))
      (Except.ok 0 : Except String ℚ) =
      .ok (r.consequent.map (fun p => (p.1, [(p.2, (0 : ℚ) * r.weight)]))) := rfl
  rw [hm]
  congr 1
  apply List.map_congr_left
  intro p _
  rw [zero_mul]

theorem foldlM_const {α β : Type} (step : α → β → Except String α) (a : α) :
    ∀ l : List β, (∀ b ∈ l, step a b = .ok a) → List.foldlM step a l = .ok a := by
  intro l
  induction l with
  | nil =>
    intro _
    rfl
  | cons b t ih =>
    intro h
    rw [List.foldlM_cons, h b (by simp), except_bind_ok]
    exact ih (fun b2 hb2 => h b2 (List.mem_cons_of_mem b hb2))

/-- The initial aggregated strengths of the event system. -/
def recInner : List (String × ℚ) := [("low", (0 : ℚ)), ("medium", 0), ("high", 0)]

/-- The aggregate after every rule has fired at strength zero. -/
def agg0Rec : List (String × List (String × ℚ)) := [("recommendation", recInner)]

theorem aggStep_rec_low :
    aggStep agg0Rec [("recommendation", [("low", (0 : ℚ))])] = agg0Rec := by
  rw [show aggStep agg0Rec [("recommendation", [("low", (0 : ℚ))])] =
    alSet agg0Rec "recommendation" (alSet recInner "low" (max 0 0)) from rfl, max_self]
  rfl

theorem aggStep_rec_medium :
    aggStep agg0Rec [("recommendation", [("medium", (0 : ℚ))])] = agg0Rec := by
  rw [show aggStep agg0Rec [("recommendation", [("medium", (0 : ℚ))])] =
    alSet agg0Rec "recommendation" (alSet recInner "medium" (max 0 0)) from rfl, max_self]
  rfl

theorem aggStep_rec_high :
    aggStep agg0Rec [("recommendation", [("high", (0 : ℚ))])] = agg0Rec := by
  rw [show aggStep agg0Rec [("recommendation", [("high", (0 : ℚ))])] =
    alSet agg0Rec "recommendation" (alSet recInner "high" (max 0 0)) from rfl, max_self]
  rfl

theorem aggregate_corner (inputs : List (String × ℚ))
    (hfz : customEventSystemValue.fuzzifyInputs inputs = fzAllZero) :
    customEventSystemValue.aggregate inputs = .ok agg0Rec := by
  rw [MamdaniFuzzySystem.aggregate, hfz]
  rw [show customEventSystemValue.initAgg = agg0Rec from rfl]
  apply foldlM_const
  intro r hr
  dsimp only
  have htd := termDegree_all_zero fzAllZero fzAllZero_all_zero
  simp only [customEventSystemValue, List.mem_cons, List.not_mem_nil, or_false] at hr
  rcases hr with rfl | rfl | rfl | rfl | rfl | rfl | rfl | rfl | rfl | rfl | rfl | rfl <;>
    first
      | (rw [rule_evaluate_zero _ fzAllZero htd (Or.inl (by decide))]
         first
           | exact congrArg Except.ok aggStep_rec_low
           | exact congrArg Except.ok aggStep_rec_medium
           | exact congrArg Except.ok aggStep_rec_high)
      | (rw [rule_evaluate_zero _ fzAllZero htd (Or.inr (by decide))]
         first
           | exact congrArg Except.ok aggStep_rec_low
           | exact congrArg Except.ok aggStep_rec_medium
           | exact congrArg Except.ok aggStep_rec_high)

theorem evaluate_corner (inputs : List (String × ℚ))
    (hfz : customEventSystemValue.fuzzifyInputs inputs = fzAllZero) :
    customEventSystemValue.evaluate inputs = .ok [("recommendation", 50)] := by
  refine evaluate_singleton_output customEventSystemValue "recommendation" recVar inputs
    recInner 50 (aggregate_corner inputs hfz) rfl ?_
  have hnf : ∀ q ∈ recInner, ¬ (0 : ℚ) < q.2 := by
    intro q hq
    fin_cases hq <;> exact lt_irrefl 0
  have hmid : (recVar.univ.headD 0 + listLast recVar.univ) / 2 = (50 : ℚ) := by
    show ((linspace 0 100 100).headD 0 + listLast (linspace 0 100 100)) / 2 = (50 : ℚ)
    rw [lin100_head, lin100_last]
    norm_num
  rw [defuzz_no_fire recVar recInner hnf, hmid]

/-- C1: at the two corner input vectors the adapter does NOT produce the
claimed high (> 70) and low (< 30) scores.  At exactly 100 every "high"
shoulder set `triangular(·,100,100)` stores membership 0 at the last
universe sample (the `x >= c` branch wins over the degenerate peak), and at
exactly 0 every "low" shoulder set `triangular(0,0,·)` stores 0 at the
first sample, so all twelve rules fire at strength 0 and both calls return
the universe midpoint 50 — which is neither greater than 70 nor less
than 30. -/
theorem spec_C1_corner_inputs_return_midpoint :
    customEventEvaluate 100 100 100 100 = .ok 50 ∧
    customEventEvaluate 0 0 0 0 = .ok 50 ∧
    ¬ (70 : ℚ) < 50 ∧ ¬ (50 : ℚ) < 30 := by
  refine ⟨?_, ?_, by norm_num, by norm_num⟩
  · rw [customEventEvaluate, customEventSystem_eq, except_bind_ok,
      evaluate_corner _ fuzzifyInputs_corner_100, except_bind_ok]
    rfl
  · rw [customEventEvaluate, customEventSystem_eq, except_bind_ok,
      evaluate_corner _ fuzzifyInputs_corner_0, except_bind_ok]
    rfl
